import Mathlib

/-!
# Verification of `polygon_directed_graph.py` (ladybug-geometry-polyskel)

A shallow embedding of the directed-graph core of the repository.
Coordinates are modelled as exact rationals (the Python code computes with
IEEE floats; the embedding uses the real-number semantics of the same
arithmetic).  Python's insertion-ordered `dict` keyed by the coordinate hash
is modelled as an insertion-ordered list of nodes whose adjacency lists hold
keys (Python stores node references; since a node's `key` and `pt` are never
mutated and nodes are never removed, a reference is observationally the key).
-/

namespace Polyskel

/-- 2D point (also used for 2D vectors). -/
abbrev Pt : Type := ℚ × ℚ

/-- Hash key: the pair of rounded coordinates.  Python formats the pair as a
string; the formatting is injective on rounded values, so the pair itself is
the faithful model of the key. -/
abbrev Key : Type := ℚ × ℚ

/-! ## Coordinate hasher (`_vector2hash`) -/

/-- Fuel-driven base-10 integer logarithm: largest `k` with `10 ^ k ≤ n`
(for `1 ≤ n`; returns 0 for `n < 10`). -/
def natLog10F : ℕ → ℕ → ℕ
  | 0, _ => 0
  | f + 1, n => if n < 10 then 0 else natLog10F f (n / 10) + 1

/-- Base-10 integer logarithm of a natural number. -/
def natLog10 (n : ℕ) : ℕ := natLog10F n n

/-- `int(log10 t)` for a positive rational `t`: the float `log10` followed by
Python's `int`, which truncates toward zero.  For `t ≥ 1` this is
`⌊log10 t⌋ = natLog10 ⌊t⌋`; for `0 < t < 1` it is `-⌊log10 (1/t)⌋`. -/
def truncLog10 (t : ℚ) : ℤ :=
  if 1 ≤ t then (natLog10 ⌊t⌋.toNat : ℤ) else -(natLog10 ⌊t⁻¹⌋.toNat : ℤ)

/-- Python's `round` to an integer: round half to even. -/
def rndHE (x : ℚ) : ℤ :=
  let f := ⌊x⌋
  let r := x - f
  if r < 1 / 2 then f
  else if 1 / 2 < r then f + 1
  else if 2 ∣ f then f else f + 1

/-- Python's `round(x, p)`: round to `p` decimal digits (`p` may be
negative, rounding to tens, hundreds, ...). -/
def roundTo (x : ℚ) (p : ℤ) : ℚ := (rndHE (x * (10 : ℚ) ^ p) : ℚ) / (10 : ℚ) ^ p

/-- The rounding precision computed by `_vector2hash`:
`try: rtol = int(log10(tol)) * -1 except ValueError: rtol = 0`.
`math.log10` raises `ValueError` exactly when `tol ≤ 0`. -/
def rtolOf (tol : ℚ) : ℤ := if 0 < tol then -(truncLog10 tol) else 0

/-- `_vector2hash(vector, tol)`: both coordinates rounded to `rtolOf tol`
digits, paired as the key. -/
def vector2hash (v : Pt) (tol : ℚ) : Key :=
  (roundTo v.1 (rtolOf tol), roundTo v.2 (rtolOf tol))

/-- Smallest `k` with `n ≤ 10 ^ k`. -/
def natClog10 (n : ℕ) : ℕ := if n ≤ 1 then 0 else natLog10 (n - 1) + 1

/-- Modelled from the spec's words (for comparison with `vector2hash`):
`precision = -floor(log10(tolerance))`, clamped to 0 when the tolerance is
≥ 1, and 0 when the tolerance is degenerate (≤ 0).  For `0 < t < 1`,
`-⌊log10 t⌋ = ⌈log10 (1/t)⌉ = natClog10 ⌈1/t⌉`. -/
def claimPrecision (tol : ℚ) : ℤ :=
  if 0 < tol then (if 1 ≤ tol then 0 else (natClog10 ⌈tol⁻¹⌉.toNat : ℤ)) else 0

/-- The hasher as the spec's words describe it (claim C1). -/
def claimHash (v : Pt) (tol : ℚ) : Key :=
  (roundTo v.1 (claimPrecision tol), roundTo v.2 (claimPrecision tol))

/-! ## `_Node` and `PolygonDirectedGraph` -/

/-- `_Node`: key, point, insertion order, adjacency list (keys of adjacent
nodes; Python stores node references, here modelled by their keys), and the
tri-state `exterior` flag (`None`/`True`/`False`). -/
structure GNode where
  key : Key
  pt : Pt
  order : ℕ
  adj_lst : List Key
  exterior : Option Bool
deriving DecidableEq

instance : Inhabited GNode := ⟨⟨(0, 0), (0, 0), 0, [], none⟩⟩

/-- `PolygonDirectedGraph`: `dg` models the insertion-ordered dict
`_directed_graph` (entries are appended, never removed, and keys are never
duplicated by the operations), plus `num_nodes` and the tolerance. -/
structure DGraph where
  dg : List GNode
  num_nodes : ℕ
  tol : ℚ
deriving DecidableEq

/-- The empty graph (`PolygonDirectedGraph(tol)`). -/
def DGraph.empty (tol : ℚ) : DGraph := ⟨[], 0, tol⟩

/-- `self._directed_graph[key]`, as an `Option` (the `node` method returns
`None` on a missing key). -/
def DGraph.node? (g : DGraph) (k : Key) : Option GNode :=
  g.dg.find? (fun n => decide (n.key = k))

/-- Total lookup used to read immutable fields of a node known to be in the
graph (Python holds a live object reference). -/
def DGraph.getN (g : DGraph) (k : Key) : GNode := (g.node? k).getD default

/-- `node_exists` / `key in self._directed_graph`. -/
def DGraph.containsKey (g : DGraph) (k : Key) : Prop := (g.node? k).isSome = true

instance (g : DGraph) (k : Key) : Decidable (g.containsKey k) := by
  unfold DGraph.containsKey; infer_instance

/-- Replace the stored node at key `k` (Python mutates the node object held
in the dict). -/
def DGraph.updateNode (g : DGraph) (k : Key) (f : GNode → GNode) : DGraph :=
  { g with dg := g.dg.map (fun n => if n.key = k then f n else n) }

/-- `node.adj_lst.append(...)` for a single key. -/
def adjAppend (ak : Key) (n : GNode) : GNode := { n with adj_lst := n.adj_lst ++ [ak] }

/-- `node.exterior = exterior`. -/
def extSet (e : Option Bool) (n : GNode) : GNode := { n with exterior := e }

/-- The list-comprehension filter of `remove_adj`. -/
def adjFilter (ks : List Key) (n : GNode) : GNode :=
  { n with adj_lst := n.adj_lst.filter (fun a => decide (a ∉ ks)) }

/-- `_check_and_make_node(key, val, exterior)`: add a fresh node (empty
adjacency, order = previous `num_nodes`) when the key is absent. -/
def DGraph.checkMake (g : DGraph) (k : Key) (val : Pt) (ext : Option Bool) : DGraph :=
  if (g.node? k).isSome then g
  else { g with dg := g.dg ++ [⟨k, val, g.num_nodes, [], ext⟩],
                num_nodes := g.num_nodes + 1 }

/-- The loop body of `add_adj`: `seen` is the running `adj_keys` set
(initialised from the node's adjacency list plus its own key). -/
def DGraph.addAdjAux (g : DGraph) (k : Key) (seen : List Key) : List Pt → DGraph
  | [] => g
  | v :: rest =>
    if vector2hash v g.tol ∈ seen then g.addAdjAux k seen rest
    else
      (((g.checkMake (vector2hash v g.tol) v none).updateNode k
          (adjAppend (vector2hash v g.tol))).addAdjAux
        k (vector2hash v g.tol :: seen) rest)

/-- `add_adj(node, adj_val_lst)`. -/
def DGraph.add_adj (g : DGraph) (k : Key) (vals : List Pt) : DGraph :=
  g.addAdjAux k (k :: (g.getN k).adj_lst) vals

/-- `remove_adj(node, adj_key_lst)`. -/
def DGraph.remove_adj (g : DGraph) (k : Key) (ks : List Key) : DGraph :=
  g.updateNode k (adjFilter ks)

/-- `add_node(val, adj_lst, exterior)`: returns the updated graph and the
resolved key. -/
def DGraph.add_node (g : DGraph) (val : Pt) (adj : List Pt) (ext : Option Bool) :
    DGraph × Key :=
  let k := vector2hash val g.tol
  let g1 := g.checkMake k val ext
  let g2 := g1.add_adj k adj
  let g3 := if ext.isSome then g2.updateNode k (extSet ext) else g2
  (g3, k)

/-- `insert_node(node, new_val, next_node, exterior)`.  Python passes node
objects; only their immutable `key` and `pt` fields are read, so the model
passes the keys and reads `pt` through the graph. -/
def DGraph.insert_node (g : DGraph) (nodeK : Key) (newVal : Pt) (nextK : Key)
    (ext : Option Bool) : DGraph × Key :=
  let p := g.add_node newVal [(g.getN nextK).pt] ext
  let g2 := p.1.add_adj nodeK [(p.1.getN p.2).pt]
  if p.2 = nextK ∨ p.2 = nodeK then (g2, p.2)
  else (g2.remove_adj nodeK [nextK], p.2)

/-- `ordered_nodes`: the dict's values sorted (stably) by `_order`. -/
def DGraph.ordered_nodes (g : DGraph) : List GNode :=
  g.dg.insertionSort (fun a b => a.order ≤ b.order)

/-- `root`: the first node of `ordered_nodes` (the cached `_root` is only
ever filled from that same value). -/
def DGraph.rootNode (g : DGraph) : GNode := g.ordered_nodes.getD 0 default

/-- `adj_matrix()`: an `num_nodes × num_nodes` 0/1 matrix, written by the
same double loop as the source (`amtx[i][adj._order] = 1`). -/
def DGraph.adj_matrix (g : DGraph) : List (List ℕ) :=
  let nodes := g.ordered_nodes
  let init := List.replicate g.num_nodes (List.replicate g.num_nodes 0)
  (List.range g.num_nodes).foldl
    (fun m i =>
      ((nodes.getD i default).adj_lst.map (fun a => (g.getN a).order)).foldl
        (fun m j => m.set i ((m.getD i []).set j 1)) m)
    init

/-- `is_edge_bidirect(node1, node2)`. -/
def isEdgeBidirect (n1 n2 : GNode) : Prop :=
  n1.key ∈ n2.adj_lst ∧ n2.key ∈ n1.adj_lst

/-- Directed adjacency `a → b` in the graph. -/
def DGraph.hasEdge (g : DGraph) (a b : Key) : Prop := b ∈ (g.getN a).adj_lst

/-- `from_point_array(point_array, loop)`.  `cls()` is called with no
argument, so the tolerance is the constructor default `1e-5`. -/
def fromPointArray (pts : List Pt) (loop : Bool) : DGraph :=
  let g1 := (List.range (pts.length - 1)).foldl
    (fun g i => (g.add_node (pts.getD i default) [pts.getD (i + 1) default] (some true)).1)
    (DGraph.empty (1 / 100000))
  if loop then
    (g1.add_node (pts.getD (pts.length - 1) default) [pts.getD 0 default] (some true)).1
  else g1

/-! ## `min_ccw_cycle` -/

/-- Exceptions raised by `min_ccw_cycle`: the explicit `RecursionError` at
the step bound, and the `AttributeError` hit when the chosen `min_node` is
`None` (Python reads `next_node.key` / `next_node.pt` off `None`). -/
inductive WalkErr where
  | recursionError : WalkErr
  | attrErr : WalkErr
deriving DecidableEq

/-- Vector `a - b` (point subtraction yields a vector). -/
def subV (a b : Pt) : Pt := (a.1 - b.1, a.2 - b.2)

/-- `v * -1`. -/
def negV (v : Pt) : Pt := (-v.1, -v.2)

/-- The candidate-selection loop of `min_ccw_cycle`: scan `next.adj_lst`,
skip the predecessor key, keep the first candidate of minimal
`theta = angle edge_dir (next_edge_dir * -1)` (strict `<`, so ties keep the
earlier candidate; `min_theta` starts at infinity, modelled by `none`).
`angle` abstracts the external `Vector2D.angle_clockwise`. -/
def chooseMin (g : DGraph) (angle : Pt → Pt → ℚ) (edgeDir : Pt) (next : GNode)
    (exclK : Key) : Option GNode :=
  (next.adj_lst.foldl
    (fun (acc : Option (ℚ × GNode)) ak =>
      if ak = exclK then acc
      else
        let adjN := g.getN ak
        let theta := angle edgeDir (negV (subV adjN.pt next.pt))
        match acc with
        | none => some (theta, adjN)
        | some (mt, mn) => if theta < mt then some (theta, adjN) else some (mt, mn))
    none).map (·.2)

/-- `min_ccw_cycle(ref_node, next_node, cycle, recurse_limit, count)` for a
positive (truthy) `recurse_limit`, for which the source's guard
`recurse_limit and count >= recurse_limit` is `count ≥ limit`; the unbounded
`recurse_limit=None`/`0` variant is not modelled (no claim needs it).
`cycle = []` models the `None` default (the source's base case 2 treats the
two identically because `if cycle` is falsy for both).  `nextN = none`
models a `None` node, whose first attribute read raises `AttributeError`;
the limit check precedes that read, as in the source. -/
def minCcwCycle (g : DGraph) (angle : Pt → Pt → ℚ) (limit : ℕ) :
    GNode → Option GNode → List GNode → (count : ℕ) → Except WalkErr (List GNode)
  | refN, nextN, cycle, count =>
    if _h : limit ≤ count then .error .recursionError
    else
      match nextN with
      | none => .error .attrErr
      | some nx =>
        if cycle ≠ [] ∧ nx.key = cycle.headI.key then .ok cycle
        else
          let cyc0 := if cycle.isEmpty then [refN] else cycle
          let cyc1 := cyc0 ++ [nx]
          let exclK := (cyc1.getD (cyc1.length - 2) default).key
          let edgeDir := subV nx.pt refN.pt
          minCcwCycle g angle limit nx (chooseMin g angle edgeDir nx exclK) cyc1 (count + 1)
termination_by _ _ _ count => limit - count
decreasing_by simp_wf; omega

/-! ## `intersect_graph_with_segment` -/

/-- A `LineSegment2D` built `from_end_points`, modelled by its endpoints. -/
abbrev Seg : Type := Pt × Pt

/-- Squared segment length.  The source sorts by `LineSegment2D.length`
(the Euclidean norm); `sqrt` is strictly monotone on nonnegatives, so
sorting by the squared length produces the same order, with the same ties. -/
def distSq (a b : Pt) : ℚ := (b.1 - a.1) ^ 2 + (b.2 - a.2) ^ 2

/-- One iteration of the edge loop: read `node.adj_lst[0]` (an
out-of-range access — modelled as failure of the whole call — when the
adjacency list is empty), intersect the edge with the segment via the
external `intersection2d.intersect_line2d_infinite` (abstracted as
`oracle`), and splice any intersection point in with `insert_node`. -/
def spliceStep (oracle : Seg → Seg → Option Pt) (seg : Seg)
    (acc : Option (DGraph × List Key)) (k : Key) : Option (DGraph × List Key) :=
  match acc with
  | none => none
  | some (g, ks) =>
    match (g.getN k).adj_lst.head? with
    | none => none
    | some nextK =>
      let trimSeg : Seg := ((g.getN k).pt, (g.getN nextK).pt)
      match oracle trimSeg seg with
      | none => some (g, ks)
      | some p =>
        let q := g.insert_node k p nextK (some false)
        some (q.1, ks ++ [q.2])

/-- The edge loop of `intersect_graph_with_segment`: `self.ordered_nodes`
is evaluated once up front (the snapshot), while each node's adjacency is
read live from the evolving graph. -/
def splicePhase (oracle : Seg → Seg → Option Pt) (seg : Seg) (g : DGraph) :
    Option (DGraph × List Key) :=
  (g.ordered_nodes.map (·.key)).foldl (spliceStep oracle seg) (some (g, []))

/-- The chain-building loop for `> 2` intersections: for consecutive
entries of the distance-sorted index list, connect the corresponding
intersection nodes both ways. -/
def connectPairs (g : DGraph) (ks : List Key) (sorted : List (ℕ × ℚ)) : DGraph :=
  (List.range (sorted.length - 1)).foldl
    (fun g i =>
      let k1 := (sorted.getD i default).1
      let k2 := (sorted.getD (i + 1) default).1
      let n1 := g.getN (ks.getD k1 default)
      let n2 := g.getN (ks.getD k2 default)
      let g1 := (g.add_node n1.pt [n2.pt] (some false)).1
      (g1.add_node n2.pt [n1.pt] (some false)).1)
    g

/-- The distance list built for `> 2` intersections: `(0, 0.0)` followed by
`(i+1, distance from the first intersection node)`; Python's stable
`sorted(..., key=lambda t: t[1])` is modelled by the stable
`List.insertionSort` on the second component. -/
def distanceList (g : DGraph) (ks : List Key) : List (ℕ × ℚ) :=
  (0, (0 : ℚ)) :: (List.range (ks.length - 1)).map
    (fun i => (i + 1, distSq (g.getN (ks.getD 0 default)).pt
                             (g.getN (ks.getD (i + 1) default)).pt))

/-- The post-loop connection phase of `intersect_graph_with_segment`. -/
def connectPhase (g : DGraph) (ks : List Key) : DGraph :=
  if ks.length = 2 then
    let n1 := g.getN (ks.getD 0 default)
    let n2 := g.getN (ks.getD 1 default)
    let g1 := (g.add_node n1.pt [n2.pt] (some false)).1
    (g1.add_node n2.pt [n1.pt] (some false)).1
  else if 2 < ks.length then
    connectPairs g ks ((distanceList g ks).insertionSort (fun a b => a.2 ≤ b.2))
  else g

/-- `intersect_graph_with_segment(segment)`, parameterised by the external
intersection routine. -/
def DGraph.intersect_graph_with_segment (g : DGraph)
    (oracle : Seg → Seg → Option Pt) (seg : Seg) : Option DGraph :=
  (splicePhase oracle seg g).map (fun q => connectPhase q.1 q.2)

/-! ## Well-formedness invariants -/

/-- Every stored node's key re-hashes from its point at the graph's
tolerance (the spec's §3 node invariant; maintained because
`_check_and_make_node` is only ever called with `key = _vector2hash(val)`). -/
def KeysConsistent (g : DGraph) : Prop :=
  ∀ n ∈ g.dg, n.key = vector2hash n.pt g.tol

/-- The dict has one entry per key. -/
def KeysNodup (g : DGraph) : Prop := (g.dg.map (·.key)).Nodup

/-- No adjacency list repeats a key or contains the node's own key. -/
def AdjOk (g : DGraph) : Prop :=
  ∀ n ∈ g.dg, n.adj_lst.Nodup ∧ n.key ∉ n.adj_lst

instance (g : DGraph) : Decidable (KeysConsistent g) := by
  unfold KeysConsistent; infer_instance

instance (g : DGraph) : Decidable (KeysNodup g) := by
  unfold KeysNodup; infer_instance

instance (g : DGraph) : Decidable (AdjOk g) := by
  unfold AdjOk; infer_instance

instance (g : DGraph) (a b : Key) : Decidable (g.hasEdge a b) := by
  unfold DGraph.hasEdge; infer_instance

instance (n1 n2 : GNode) : Decidable (isEdgeBidirect n1 n2) := by
  unfold isEdgeBidirect; infer_instance

/-! ## Basic lemmas about the store primitives -/

theorem node?_some_key {g : DGraph} {k : Key} {n : GNode} (h : g.node? k = some n) :
    n.key = k := by
  have := List.find?_some h
  simpa using this

theorem node?_mem {g : DGraph} {k : Key} {n : GNode} (h : g.node? k = some n) :
    n ∈ g.dg := List.mem_of_find?_eq_some h

theorem getN_key {g : DGraph} {k : Key} (h : g.containsKey k) : (g.getN k).key = k := by
  unfold DGraph.containsKey at h
  obtain ⟨n, hn⟩ := Option.isSome_iff_exists.mp h
  simp [DGraph.getN, hn, node?_some_key hn]

theorem getN_mem {g : DGraph} {k : Key} (h : g.containsKey k) : g.getN k ∈ g.dg := by
  unfold DGraph.containsKey at h
  obtain ⟨n, hn⟩ := Option.isSome_iff_exists.mp h
  simpa [DGraph.getN, hn] using node?_mem hn

theorem find?_map_keyfix (l : List GNode) (k k' : Key) (f : GNode → GNode)
    (hf : ∀ n, (f n).key = n.key) :
    (l.map fun n => if n.key = k then f n else n).find? (fun n => decide (n.key = k'))
      = (l.find? (fun n => decide (n.key = k'))).map
          (fun n => if n.key = k then f n else n) := by
  induction l with
  | nil => simp
  | cons a t ih =>
    have hkey : ((if a.key = k then f a else a).key = k') = (a.key = k') := by
      split <;> simp [hf]
    simp only [List.map_cons, List.find?_cons, hkey]
    by_cases h' : a.key = k'
    · simp [h']
    · simpa [h'] using ih

theorem node?_updateNode (g : DGraph) (k k' : Key) (f : GNode → GNode)
    (hf : ∀ n, (f n).key = n.key) :
    (g.updateNode k f).node? k' =
      (g.node? k').map (fun n => if n.key = k then f n else n) :=
  find?_map_keyfix g.dg k k' f hf

theorem tol_updateNode (g : DGraph) (k : Key) (f : GNode → GNode) :
    (g.updateNode k f).tol = g.tol := rfl

theorem num_nodes_updateNode (g : DGraph) (k : Key) (f : GNode → GNode) :
    (g.updateNode k f).num_nodes = g.num_nodes := rfl

theorem map_keyfix_id (l : List GNode) (k : Key) (f : GNode → GNode)
    (h : ∀ n ∈ l, n.key = k → f n = n) :
    l.map (fun n => if n.key = k then f n else n) = l := by
  induction l with
  | nil => rfl
  | cons a t ih =>
    have ha := h a (by simp)
    have ht : ∀ n ∈ t, n.key = k → f n = n := fun n hn => h n (by simp [hn])
    by_cases hak : a.key = k <;> simp [hak, ha, ih ht]

theorem updateNode_eq_self (g : DGraph) (k : Key) (f : GNode → GNode)
    (h : ∀ n ∈ g.dg, n.key = k → f n = n) : g.updateNode k f = g := by
  unfold DGraph.updateNode
  rw [map_keyfix_id g.dg k f h]

theorem checkMake_present {g : DGraph} {k : Key} {v : Pt} {e : Option Bool}
    (h : (g.node? k).isSome) : g.checkMake k v e = g := by
  simp [DGraph.checkMake, h]

theorem tol_checkMake (g : DGraph) (k : Key) (v : Pt) (e : Option Bool) :
    (g.checkMake k v e).tol = g.tol := by
  unfold DGraph.checkMake; split <;> rfl

theorem node?_checkMake_other {g : DGraph} {k k' : Key} {v : Pt} {e : Option Bool}
    (h : k' ≠ k) : (g.checkMake k v e).node? k' = g.node? k' := by
  unfold DGraph.checkMake
  split
  · rfl
  · unfold DGraph.node?
    simp [List.find?_append, h.symm]

theorem node?_checkMake_absent {g : DGraph} {k : Key} {v : Pt} {e : Option Bool}
    (h : g.node? k = none) :
    (g.checkMake k v e).node? k = some ⟨k, v, g.num_nodes, [], e⟩ := by
  unfold DGraph.checkMake
  simp only [h, Option.isSome_none, Bool.false_eq_true, if_false]
  unfold DGraph.node? at h ⊢
  simp [List.find?_append, h]

theorem containsKey_checkMake_self (g : DGraph) (k : Key) (v : Pt) (e : Option Bool) :
    (g.checkMake k v e).containsKey k := by
  unfold DGraph.containsKey
  cases h : g.node? k with
  | none => simp [node?_checkMake_absent h]
  | some n =>
    rw [checkMake_present (by simp [h])]
    simp [h]

theorem containsKey_checkMake_mono {g : DGraph} {k' : Key} (k : Key) (v : Pt)
    (e : Option Bool) (h : g.containsKey k') : (g.checkMake k v e).containsKey k' := by
  by_cases hk : k' = k
  · subst hk; exact containsKey_checkMake_self g k' v e
  · unfold DGraph.containsKey at h ⊢
    rw [node?_checkMake_other hk]
    exact h

theorem num_nodes_checkMake_le (g : DGraph) (k : Key) (v : Pt) (e : Option Bool) :
    g.num_nodes ≤ (g.checkMake k v e).num_nodes := by
  unfold DGraph.checkMake; split
  · exact le_refl _
  · exact Nat.le_succ _

theorem containsKey_updateNode {g : DGraph} {k' : Key} (k : Key) (f : GNode → GNode)
    (hf : ∀ n, (f n).key = n.key) (h : g.containsKey k') :
    (g.updateNode k f).containsKey k' := by
  unfold DGraph.containsKey at h ⊢
  rw [node?_updateNode g k k' f hf]
  obtain ⟨n, hn⟩ := Option.isSome_iff_exists.mp h
  simp [hn]

theorem keysConsistent_checkMake {g : DGraph} {k : Key} {v : Pt} {e : Option Bool}
    (hg : KeysConsistent g) (hk : k = vector2hash v g.tol) :
    KeysConsistent (g.checkMake k v e) := by
  unfold DGraph.checkMake
  split
  · exact hg
  · intro n hn
    simp only [List.mem_append, List.mem_singleton] at hn
    rcases hn with hn | hn
    · exact hg n hn
    · subst hn; exact hk

theorem keysConsistent_updateNode (g : DGraph) (k : Key) (f : GNode → GNode)
    (hf : ∀ n, (f n).key = n.key ∧ (f n).pt = n.pt)
    (hg : KeysConsistent g) : KeysConsistent (g.updateNode k f) := by
  intro n hn
  simp only [DGraph.updateNode, List.mem_map] at hn
  obtain ⟨m, hm, hfm⟩ := hn
  subst hfm
  split
  · rw [(hf m).1, (hf m).2]; exact hg m hm
  · exact hg m hm

theorem keysNodup_checkMake {g : DGraph} {k : Key} {v : Pt} {e : Option Bool}
    (hg : KeysNodup g) : KeysNodup (g.checkMake k v e) := by
  unfold DGraph.checkMake
  split
  · exact hg
  · rename_i habs
    unfold KeysNodup at hg ⊢
    simp only [List.map_append, List.map_cons, List.map_nil]
    rw [List.nodup_append]
    refine ⟨hg, List.nodup_singleton _, ?_⟩
    intro x hx
    simp only [List.mem_map] at hx
    obtain ⟨n, hn, hnk⟩ := hx
    have : g.node? k = none := by
      cases hh : g.node? k with
      | none => rfl
      | some m => simp [hh] at habs
    unfold DGraph.node? at this
    rw [List.find?_eq_none] at this
    have := this n hn
    simp only [decide_eq_true_eq] at this
    simp only [List.mem_singleton]
    intro hxk
    exact this (by rw [hnk, hxk])

theorem keysNodup_updateNode (g : DGraph) (k : Key) (f : GNode → GNode)
    (hf : ∀ n, (f n).key = n.key) (hg : KeysNodup g) : KeysNodup (g.updateNode k f) := by
  unfold KeysNodup DGraph.updateNode at *
  have : (g.dg.map fun n => if n.key = k then f n else n).map (·.key) = g.dg.map (·.key) := by
    rw [List.map_map]
    apply List.map_congr_left
    intro n _
    simp only [Function.comp_apply]
    split <;> simp [hf]
  rw [this]
  exact hg

/-! ## Lemmas about `add_adj` -/

theorem tol_addAdjAux (k : Key) (vals : List Pt) : ∀ (g : DGraph) (seen : List Key),
    (g.addAdjAux k seen vals).tol = g.tol := by
  induction vals with
  | nil => intro g seen; rfl
  | cons v rest ih =>
    intro g seen
    unfold DGraph.addAdjAux
    split
    · exact ih g seen
    · rw [ih]
      rw [tol_updateNode, tol_checkMake]

theorem num_nodes_addAdjAux_le (k : Key) (vals : List Pt) :
    ∀ (g : DGraph) (seen : List Key),
    g.num_nodes ≤ (g.addAdjAux k seen vals).num_nodes := by
  induction vals with
  | nil => intro g seen; exact le_refl _
  | cons v rest ih =>
    intro g seen
    unfold DGraph.addAdjAux
    split
    · exact ih g seen
    · calc g.num_nodes ≤ _ := num_nodes_checkMake_le g _ v none
        _ ≤ _ := by rw [← num_nodes_updateNode _ k (adjAppend (vector2hash v g.tol))]
                    exact ih _ _

theorem containsKey_addAdjAux_mono (k : Key) (vals : List Pt) :
    ∀ (g : DGraph) (seen : List Key) (k' : Key), g.containsKey k' →
    (g.addAdjAux k seen vals).containsKey k' := by
  induction vals with
  | nil => intro g seen k' h; exact h
  | cons v rest ih =>
    intro g seen k' h
    unfold DGraph.addAdjAux
    split
    · exact ih g seen k' h
    · exact ih _ _ k' (containsKey_updateNode k _ (fun n => rfl)
        (containsKey_checkMake_mono _ v none h))

theorem keysConsistent_addAdjAux (k : Key) (vals : List Pt) :
    ∀ (g : DGraph) (seen : List Key), KeysConsistent g →
    KeysConsistent (g.addAdjAux k seen vals) := by
  induction vals with
  | nil => intro g seen h; exact h
  | cons v rest ih =>
    intro g seen h
    unfold DGraph.addAdjAux
    split
    · exact ih g seen h
    · exact ih _ _ (keysConsistent_updateNode _ k (adjAppend (vector2hash v g.tol))
        (fun n => ⟨rfl, rfl⟩) (keysConsistent_checkMake h rfl))

theorem keysNodup_addAdjAux (k : Key) (vals : List Pt) :
    ∀ (g : DGraph) (seen : List Key), KeysNodup g →
    KeysNodup (g.addAdjAux k seen vals) := by
  induction vals with
  | nil => intro g seen h; exact h
  | cons v rest ih =>
    intro g seen h
    unfold DGraph.addAdjAux
    split
    · exact ih g seen h
    · exact ih _ _ (keysNodup_updateNode _ k (adjAppend (vector2hash v g.tol))
        (fun n => rfl) (keysNodup_checkMake h))

theorem node?_addAdjAux_other (k : Key) (vals : List Pt) :
    ∀ (g : DGraph) (seen : List Key) (k' : Key), k' ≠ k → (g.node? k').isSome →
    (g.addAdjAux k seen vals).node? k' = g.node? k' := by
  induction vals with
  | nil => intro g seen k' _ _; rfl
  | cons v rest ih =>
    intro g seen k' hne hsome
    unfold DGraph.addAdjAux
    split
    · exact ih g seen k' hne hsome
    · set ak := vector2hash v g.tol with hak
      set g1 := (g.checkMake ak v none).updateNode k (adjAppend ak) with hg1
      have hck : (g.checkMake ak v none).node? k' = g.node? k' := by
        by_cases hk : k' = ak
        · subst hk; rw [checkMake_present hsome]
        · exact node?_checkMake_other hk
      have h1 : g1.node? k' = g.node? k' := by
        rw [hg1, node?_updateNode _ k k' (adjAppend ak) (fun n => rfl), hck]
        obtain ⟨n, hn⟩ := Option.isSome_iff_exists.mp hsome
        have := node?_some_key hn
        simp [hn, this, hne]
      rw [ih g1 _ k' hne (by rw [h1]; exact hsome)]
      exact h1

theorem addAdjAux_spec (k : Key) (vals : List Pt) : ∀ (g : DGraph) (seen : List Key),
    g.containsKey k → k ∈ seen →
    ∃ t : List Key,
      (g.addAdjAux k seen vals).node? k =
        (g.node? k).map (fun n => { n with adj_lst := n.adj_lst ++ t }) ∧
      t.Nodup ∧ (∀ s ∈ seen, s ∉ t) ∧
      (∀ v ∈ vals, vector2hash v g.tol ∈ seen ∨ vector2hash v g.tol ∈ t) := by
  induction vals with
  | nil =>
    intro g seen _ _
    refine ⟨[], ?_, List.nodup_nil, by simp, by simp⟩
    cases h : g.node? k <;> simp [DGraph.addAdjAux, h]
  | cons v rest ih =>
    intro g seen hk hseen
    unfold DGraph.addAdjAux
    split
    · rename_i hmem
      obtain ⟨t, h1, h2, h3, h4⟩ := ih g seen hk hseen
      refine ⟨t, h1, h2, h3, ?_⟩
      intro w hw
      rcases List.mem_cons.mp hw with hw | hw
      · subst hw; exact Or.inl hmem
      · exact h4 w hw
    · rename_i hnmem
      set ak := vector2hash v g.tol with hak
      set g1 := (g.checkMake ak v none).updateNode k (adjAppend ak) with hg1
      have hkne : ak ≠ k := fun h => hnmem (h ▸ hseen)
      have hk1 : g1.containsKey k :=
        containsKey_updateNode k _ (fun n => rfl)
          (containsKey_checkMake_mono _ v none hk)
      have htol : g1.tol = g.tol := by rw [hg1, tol_updateNode, tol_checkMake]
      obtain ⟨t', h1, h2, h3, h4⟩ := ih g1 (ak :: seen) hk1 (List.mem_cons_of_mem _ hseen)
      have hnode1 : g1.node? k =
          (g.node? k).map (fun n => { n with adj_lst := n.adj_lst ++ [ak] }) := by
        rw [hg1, node?_updateNode _ k k (adjAppend ak) (fun n => rfl),
          node?_checkMake_other (Ne.symm hkne)]
        obtain ⟨n, hn⟩ := Option.isSome_iff_exists.mp hk
        simp [hn, node?_some_key hn, adjAppend]
      refine ⟨ak :: t', ?_, ?_, ?_, ?_⟩
      · rw [h1, hnode1]
        cases g.node? k <;> simp
      · exact List.nodup_cons.mpr ⟨fun h => h3 ak (by simp) h, h2⟩
      · intro s hs
        simp only [List.mem_cons, not_or]
        exact ⟨fun h => hnmem (h ▸ hs), h3 s (List.mem_cons_of_mem _ hs)⟩
      · intro w hw
        rcases List.mem_cons.mp hw with hw | hw
        · subst hw; exact Or.inr (List.mem_cons_self _ _)
        · rcases h4 w hw with h | h
          · rw [htol] at h
            rcases List.mem_cons.mp h with h | h
            · exact Or.inr (h ▸ List.mem_cons_self _ _)
            · exact Or.inl h
          · rw [htol] at h
            exact Or.inr (List.mem_cons_of_mem _ h)

/-! ## Lemmas about `add_node` -/

theorem add_node_def (g : DGraph) (v : Pt) (adj : List Pt) (e : Option Bool) :
    g.add_node v adj e =
      (if e.isSome then
        (((g.checkMake (vector2hash v g.tol) v e).add_adj (vector2hash v g.tol) adj).updateNode
          (vector2hash v g.tol) (extSet e))
       else ((g.checkMake (vector2hash v g.tol) v e).add_adj (vector2hash v g.tol) adj),
       vector2hash v g.tol) := rfl

theorem add_node_fst (g : DGraph) (v : Pt) (adj : List Pt) (e : Option Bool) :
    (g.add_node v adj e).1 =
      if e.isSome then
        (((g.checkMake (vector2hash v g.tol) v e).add_adj (vector2hash v g.tol) adj).updateNode
          (vector2hash v g.tol) (extSet e))
      else ((g.checkMake (vector2hash v g.tol) v e).add_adj (vector2hash v g.tol) adj) := rfl

theorem addAdjAux_all_seen (k : Key) (vals : List Pt) : ∀ (g : DGraph) (seen : List Key),
    (∀ w ∈ vals, vector2hash w g.tol ∈ seen) → g.addAdjAux k seen vals = g := by
  induction vals with
  | nil => intro g seen _; rfl
  | cons v rest ih =>
    intro g seen h
    unfold DGraph.addAdjAux
    rw [if_pos (h v (by simp))]
    exact ih g seen (fun w hw => h w (by simp [hw]))

theorem tol_add_adj (g : DGraph) (k : Key) (vals : List Pt) :
    (g.add_adj k vals).tol = g.tol := tol_addAdjAux k vals g _

theorem tol_add_node (g : DGraph) (v : Pt) (adj : List Pt) (e : Option Bool) :
    (g.add_node v adj e).1.tol = g.tol := by
  rw [add_node_fst]
  split
  · rw [tol_updateNode, tol_add_adj, tol_checkMake]
  · rw [tol_add_adj, tol_checkMake]

theorem containsKey_add_node_mono {g : DGraph} {k' : Key} (v : Pt) (adj : List Pt)
    (e : Option Bool) (h : g.containsKey k') : (g.add_node v adj e).1.containsKey k' := by
  rw [add_node_fst]
  have h1 := containsKey_checkMake_mono (vector2hash v g.tol) v e h
  have h2 : ((g.checkMake (vector2hash v g.tol) v e).add_adj
      (vector2hash v g.tol) adj).containsKey k' :=
    containsKey_addAdjAux_mono (vector2hash v g.tol) adj _ _ k' h1
  split
  · exact containsKey_updateNode _ (extSet e) (fun n => rfl) h2
  · exact h2

theorem containsKey_add_node_self (g : DGraph) (v : Pt) (adj : List Pt) (e : Option Bool) :
    (g.add_node v adj e).1.containsKey (vector2hash v g.tol) := by
  rw [add_node_fst]
  have h1 := containsKey_checkMake_self g (vector2hash v g.tol) v e
  have h2 : ((g.checkMake (vector2hash v g.tol) v e).add_adj
      (vector2hash v g.tol) adj).containsKey (vector2hash v g.tol) :=
    containsKey_addAdjAux_mono (vector2hash v g.tol) adj _ _ _ h1
  split
  · exact containsKey_updateNode _ (extSet e) (fun n => rfl) h2
  · exact h2

theorem num_nodes_add_node_le (g : DGraph) (v : Pt) (adj : List Pt) (e : Option Bool) :
    g.num_nodes ≤ (g.add_node v adj e).1.num_nodes := by
  rw [add_node_fst]
  have h1 := num_nodes_checkMake_le g (vector2hash v g.tol) v e
  have h2 : ((g.checkMake (vector2hash v g.tol) v e).add_adj
      (vector2hash v g.tol) adj).num_nodes ≥ (g.checkMake (vector2hash v g.tol) v e).num_nodes :=
    num_nodes_addAdjAux_le (vector2hash v g.tol) adj _ _
  split
  · rw [num_nodes_updateNode]; exact le_trans h1 h2
  · exact le_trans h1 h2

theorem keysConsistent_add_node {g : DGraph} (v : Pt) (adj : List Pt) (e : Option Bool)
    (h : KeysConsistent g) : KeysConsistent (g.add_node v adj e).1 := by
  rw [add_node_fst]
  have h1 : KeysConsistent (g.checkMake (vector2hash v g.tol) v e) :=
    keysConsistent_checkMake h rfl
  have h2 : KeysConsistent
      ((g.checkMake (vector2hash v g.tol) v e).add_adj (vector2hash v g.tol) adj) :=
    keysConsistent_addAdjAux (vector2hash v g.tol) adj _ _ h1
  split
  · exact keysConsistent_updateNode _ _ (extSet e) (fun n => ⟨rfl, rfl⟩) h2
  · exact h2

theorem keysNodup_add_node {g : DGraph} (v : Pt) (adj : List Pt) (e : Option Bool)
    (h : KeysNodup g) : KeysNodup (g.add_node v adj e).1 := by
  rw [add_node_fst]
  have h2 : KeysNodup
      ((g.checkMake (vector2hash v g.tol) v e).add_adj (vector2hash v g.tol) adj) :=
    keysNodup_addAdjAux (vector2hash v g.tol) adj _ _ (keysNodup_checkMake h)
  split
  · exact keysNodup_updateNode _ _ (extSet e) (fun n => rfl) h2
  · exact h2

theorem getN_of_node? {g : DGraph} {k : Key} {n : GNode} (h : g.node? k = some n) :
    g.getN k = n := by simp [DGraph.getN, h]

/-- Claim C5: `add_node` is idempotent — repeating a call with identical
arguments returns the same key and leaves the graph state (node set,
`num_nodes`, every adjacency list, every flag) exactly as after the first
call. -/
theorem add_node_idempotent (g : DGraph) (v : Pt) (adj : List Pt) (e : Option Bool) :
    (g.add_node v adj e).1.add_node v adj e = g.add_node v adj e := by
  set k := vector2hash v g.tol with hkdef
  set g1 := g.checkMake k v e with hg1def
  set g2 := g1.add_adj k adj with hg2def
  set A := (g.add_node v adj e).1 with hAdef
  have hAeq : A = if e.isSome then g2.updateNode k (extSet e) else g2 := rfl
  have hAtol : A.tol = g.tol := tol_add_node g v adj e
  have hAk : A.containsKey k := containsKey_add_node_self g v adj e
  have hg1k : g1.containsKey k := containsKey_checkMake_self g k v e
  have hg1tol : g1.tol = g.tol := tol_checkMake g k v e
  obtain ⟨n1, hn1⟩ := Option.isSome_iff_exists.mp hg1k
  have hn1key : n1.key = k := node?_some_key hn1
  have hg1getN : g1.getN k = n1 := getN_of_node? hn1
  obtain ⟨t, hnode, _, _, hall⟩ :=
    addAdjAux_spec k adj g1 (k :: (g1.getN k).adj_lst) hg1k (by simp)
  have hg2node : g2.node? k = some { n1 with adj_lst := n1.adj_lst ++ t } := by
    rw [hg2def]
    show (g1.addAdjAux k (k :: (g1.getN k).adj_lst) adj).node? k = _
    rw [hnode, hn1]
    rfl
  have hAadj : (A.getN k).adj_lst = n1.adj_lst ++ t := by
    rw [hAeq]
    by_cases he : e.isSome
    · rw [if_pos he]
      have h2 := node?_updateNode g2 k k (extSet e) (fun n => rfl)
      rw [hg2node] at h2
      rw [DGraph.getN, h2]
      simp [extSet, hn1key]
    · rw [if_neg he, DGraph.getN, hg2node]
      rfl
  have hcond : ∀ w ∈ adj, vector2hash w A.tol ∈ k :: (A.getN k).adj_lst := by
    intro w hw
    rw [hAtol, hAadj]
    rcases hall w hw with h | h
    · rw [hg1tol, hg1getN] at h
      rcases List.mem_cons.mp h with h | h
      · exact h ▸ List.mem_cons_self _ _
      · exact List.mem_cons_of_mem _ (List.mem_append_left _ h)
    · rw [hg1tol] at h
      exact List.mem_cons_of_mem _ (List.mem_append_right _ h)
  have hB : A.add_adj k adj = A :=
    addAdjAux_all_seen k adj A (k :: (A.getN k).adj_lst) hcond
  have hsecond : A.add_node v adj e = (A, k) := by
    rw [add_node_def A v adj e]
    have hkA : vector2hash v A.tol = k := by rw [hAtol]
    rw [hkA, checkMake_present hAk, hB]
    by_cases he : e.isSome
    · rw [if_pos he]
      have hC : A.updateNode k (extSet e) = A := by
        apply updateNode_eq_self
        intro n hn hnk
        rw [hAeq, if_pos he] at hn
        simp only [DGraph.updateNode, List.mem_map] at hn
        obtain ⟨m, hm, hfm⟩ := hn
        by_cases hmk : m.key = k
        · rw [if_pos hmk] at hfm; rw [← hfm]; rfl
        · rw [if_neg hmk] at hfm; rw [← hfm] at hnk; exact absurd hnk hmk
      rw [hC]
    · rw [if_neg he]
  rw [hsecond, hAdef]
  exact Prod.mk.eta

/-! ## Correctness of the base-10 logarithm helpers, and claim C1 -/

theorem natLog10F_correct : ∀ (f n : ℕ), 1 ≤ n → n ≤ f →
    10 ^ natLog10F f n ≤ n ∧ n < 10 ^ (natLog10F f n + 1) := by
  intro f
  induction f with
  | zero => intro n h1 h2; omega
  | succ f ih =>
    intro n h1 h2
    unfold natLog10F
    by_cases hn : n < 10
    · simp only [hn, if_true]
      constructor
      · simpa using h1
      · simpa using hn
    · simp only [hn, if_false]
      have hq1 : 1 ≤ n / 10 := by omega
      have hq2 : n / 10 ≤ f := by omega
      obtain ⟨hlo, hhi⟩ := ih (n / 10) hq1 hq2
      constructor
      · calc 10 ^ (natLog10F f (n / 10) + 1) = 10 ^ natLog10F f (n / 10) * 10 := by
              rw [pow_succ]
          _ ≤ n / 10 * 10 := by exact Nat.mul_le_mul_right 10 hlo
          _ ≤ n := Nat.div_mul_le_self n 10
      · calc n < (n / 10 + 1) * 10 := by omega
          _ ≤ 10 ^ (natLog10F f (n / 10) + 1) * 10 := by
              exact Nat.mul_le_mul_right 10 (by omega)
          _ = 10 ^ (natLog10F f (n / 10) + 1 + 1) := by ring

theorem natLog10_correct {n : ℕ} (h : 1 ≤ n) :
    10 ^ natLog10 n ≤ n ∧ n < 10 ^ (natLog10 n + 1) :=
  natLog10F_correct n n h (le_refl n)

/-- Claim C1 (counterexample): the hasher does not round at the precision
`-floor(log10 tol)` clamped to 0 for `tol ≥ 1`.  At `tol = 1/20` the code's
`int(log10 tol)` truncates toward zero (precision 1, not 2), and at
`tol = 100` the precision is `-2` (rounding to hundreds), not 0. -/
theorem vector2hash_ne_claimHash :
    vector2hash (1 / 25, 0) (1 / 20) ≠ claimHash (1 / 25, 0) (1 / 20) ∧
    vector2hash (60, 0) 100 ≠ claimHash (60, 0) 100 := by
  with_unfolding_all decide

/-- Claim C1 (amended): for a positive tolerance `t` both coordinates are
rounded independently to precision `-n` where `n = int(log10 t)` is the
*truncation toward zero* of `log10 t` (characterised below by
`10^n ≤ t < 10^(n+1)` for `t ≥ 1` and `10^(n-1) < t ≤ 10^n`, `n ≤ 0`, for
`t < 1`); there is no clamping at 0 for `t ≥ 1` (for `t ≥ 10` the precision
is negative).  For a degenerate tolerance (`t ≤ 0`, where `log10` raises),
the fallback precision is 0 (round to the nearest integer). -/
theorem vector2hash_trunc_precision (v : Pt) (t : ℚ) :
    (0 < t → ∃ n : ℤ,
      ((1 ≤ t ∧ (10 : ℚ) ^ n ≤ t ∧ t < (10 : ℚ) ^ (n + 1)) ∨
       (t < 1 ∧ n ≤ 0 ∧ (10 : ℚ) ^ (n - 1) < t ∧ t ≤ (10 : ℚ) ^ n)) ∧
      vector2hash v t = (roundTo v.1 (-n), roundTo v.2 (-n))) ∧
    (t ≤ 0 → vector2hash v t = (roundTo v.1 0, roundTo v.2 0)) := by
  constructor
  · intro ht
    refine ⟨truncLog10 t, ?_, ?_⟩
    · unfold truncLog10
      by_cases h1 : 1 ≤ t
      · rw [if_pos h1]
        left
        refine ⟨h1, ?_, ?_⟩
        · have hfl : (1 : ℤ) ≤ ⌊t⌋ := by
            rwa [Int.le_floor, Int.cast_one]
          have hnat : 1 ≤ ⌊t⌋.toNat := by omega
          obtain ⟨hlo, _⟩ := natLog10_correct hnat
          have : ((10 ^ natLog10 ⌊t⌋.toNat : ℕ) : ℚ) ≤ ((⌊t⌋.toNat : ℕ) : ℚ) := by
            exact_mod_cast hlo
          calc (10 : ℚ) ^ ((natLog10 ⌊t⌋.toNat : ℤ)) = ((10 ^ natLog10 ⌊t⌋.toNat : ℕ) : ℚ) := by
                rw [zpow_natCast]; push_cast; ring
            _ ≤ ((⌊t⌋.toNat : ℕ) : ℚ) := this
            _ = ((⌊t⌋ : ℤ) : ℚ) := by
                have h0 : ((⌊t⌋.toNat : ℤ)) = ⌊t⌋ := Int.toNat_of_nonneg (by omega)
                exact_mod_cast congrArg (fun z : ℤ => (z : ℚ)) h0
            _ ≤ t := Int.floor_le t
        · have hfl : (1 : ℤ) ≤ ⌊t⌋ := by
            rwa [Int.le_floor, Int.cast_one]
          have hnat : 1 ≤ ⌊t⌋.toNat := by omega
          obtain ⟨_, hhi⟩ := natLog10_correct hnat
          have h2 : t < (⌊t⌋ : ℚ) + 1 := Int.lt_floor_add_one t
          have h3 : ((⌊t⌋ : ℤ) : ℚ) + 1 ≤ ((10 ^ (natLog10 ⌊t⌋.toNat + 1) : ℕ) : ℚ) := by
            have h4 : ⌊t⌋ + 1 ≤ ((10 ^ (natLog10 ⌊t⌋.toNat + 1) : ℕ) : ℤ) := by omega
            exact_mod_cast h4
          calc t < ((⌊t⌋ : ℤ) : ℚ) + 1 := h2
            _ ≤ ((10 ^ (natLog10 ⌊t⌋.toNat + 1) : ℕ) : ℚ) := h3
            _ = (10 : ℚ) ^ ((natLog10 ⌊t⌋.toNat : ℤ) + 1) := by
                rw [show ((natLog10 ⌊t⌋.toNat : ℤ) + 1) = ((natLog10 ⌊t⌋.toNat + 1 : ℕ) : ℤ) by
                  push_cast; ring]
                rw [zpow_natCast]
                push_cast
                ring
      · rw [if_neg h1]
        push_neg at h1
        right
        have hinv : 1 < t⁻¹ := (one_lt_inv₀ ht).mpr h1
        have hfl : (1 : ℤ) ≤ ⌊t⁻¹⌋ := by
          rw [Int.le_floor, Int.cast_one]
          exact le_of_lt hinv
        have hnat : 1 ≤ ⌊t⁻¹⌋.toNat := by omega
        obtain ⟨hlo, hhi⟩ := natLog10_correct hnat
        set L := natLog10 ⌊t⁻¹⌋.toNat with hL
        have hcast : ((⌊t⁻¹⌋.toNat : ℕ) : ℚ) = ((⌊t⁻¹⌋ : ℤ) : ℚ) := by
          have h0 : ((⌊t⁻¹⌋.toNat : ℤ)) = ⌊t⁻¹⌋ := Int.toNat_of_nonneg (by omega)
          exact_mod_cast congrArg (fun z : ℤ => (z : ℚ)) h0
        refine ⟨h1, neg_nonpos.mpr (Int.natCast_nonneg L), ?_, ?_⟩
        · have h2 : t⁻¹ < ((⌊t⁻¹⌋ : ℤ) : ℚ) + 1 := Int.lt_floor_add_one _
          have h3 : ((⌊t⁻¹⌋ : ℤ) : ℚ) + 1 ≤ ((10 ^ (L + 1) : ℕ) : ℚ) := by
            have h4 : ⌊t⁻¹⌋ + 1 ≤ ((10 ^ (L + 1) : ℕ) : ℤ) := by omega
            exact_mod_cast h4
          have h5 : t⁻¹ < ((10 ^ (L + 1) : ℕ) : ℚ) := lt_of_lt_of_le h2 h3
          have h6 : (10 : ℚ) ^ (-(L : ℤ) - 1) = (((10 ^ (L + 1) : ℕ) : ℚ))⁻¹ := by
            rw [show (-(L : ℤ) - 1) = -(((L + 1 : ℕ) : ℤ)) by push_cast; ring]
            rw [zpow_neg, zpow_natCast]
            push_cast
            ring_nf
          rw [h6]
          have hpow : (0 : ℚ) < ((10 ^ (L + 1) : ℕ) : ℚ) := by positivity
          rw [← one_div, div_lt_iff hpow]
          have h7 : t * t⁻¹ < t * ((10 ^ (L + 1) : ℕ) : ℚ) :=
            mul_lt_mul_of_pos_left h5 ht
          rwa [mul_inv_cancel₀ (ne_of_gt ht)] at h7
        · have hA1 : ((10 ^ L : ℕ) : ℚ) ≤ ((⌊t⁻¹⌋ : ℤ) : ℚ) := by
            rw [← hcast]
            exact_mod_cast hlo
          have hA : ((10 ^ L : ℕ) : ℚ) ≤ t⁻¹ := le_trans hA1 (Int.floor_le _)
          have hApos : (0 : ℚ) < ((10 ^ L : ℕ) : ℚ) := by positivity
          have h6 : (10 : ℚ) ^ (-(L : ℤ)) = (((10 ^ L : ℕ) : ℚ))⁻¹ := by
            rw [show (-(L : ℤ)) = -((L : ℕ) : ℤ) by push_cast; ring]
            rw [zpow_neg, zpow_natCast]
            congr 1
            push_cast
            ring
          rw [h6, ← one_div, le_div_iff hApos]
          have h7 : t * ((10 ^ L : ℕ) : ℚ) ≤ t * t⁻¹ :=
            mul_le_mul_of_nonneg_left hA (le_of_lt ht)
          rwa [mul_inv_cancel₀ (ne_of_gt ht)] at h7
    · show (roundTo v.1 (rtolOf t), roundTo v.2 (rtolOf t)) = _
      rw [rtolOf, if_pos ht]
  · intro ht
    show (roundTo v.1 (rtolOf t), roundTo v.2 (rtolOf t)) = _
    rw [rtolOf, if_neg (by exact not_lt.mpr ht)]

/-- Witness for the amended C1 theorem at `v = (1/25, 0)`, `t = 1/20`. -/
theorem vector2hash_trunc_precision_witness :
    ∃ n : ℤ,
      ((1 ≤ (1 / 20 : ℚ) ∧ (10 : ℚ) ^ n ≤ (1 / 20 : ℚ) ∧ (1 / 20 : ℚ) < (10 : ℚ) ^ (n + 1)) ∨
       ((1 / 20 : ℚ) < 1 ∧ n ≤ 0 ∧ (10 : ℚ) ^ (n - 1) < (1 / 20 : ℚ) ∧
        (1 / 20 : ℚ) ≤ (10 : ℚ) ^ n)) ∧
      vector2hash (1 / 25, 0) (1 / 20) = (roundTo (1 / 25) (-n), roundTo 0 (-n)) :=
  (vector2hash_trunc_precision (1 / 25, 0) (1 / 20)).1 (by with_unfolding_all decide)

/-! ## Lemmas for `insert_node` (claims C2 and C3) -/

/-- A node's data without the mutable `exterior` flag. -/
def stripExt (n : GNode) : Key × Pt × ℕ × List Key := (n.key, n.pt, n.order, n.adj_lst)

theorem hash_getN_pt {g : DGraph} {k : Key} (hcons : KeysConsistent g)
    (h : g.containsKey k) : vector2hash (g.getN k).pt g.tol = k := by
  have hm := getN_mem h
  have := hcons _ hm
  rw [← this, getN_key h]

theorem node?_updateNode_extSet (g : DGraph) (k : Key) (e : Option Bool) (k' : Key) :
    ((g.updateNode k (extSet e)).node? k').map stripExt = (g.node? k').map stripExt := by
  rw [node?_updateNode g k k' (extSet e) (fun n => rfl)]
  cases h : g.node? k' with
  | none => rfl
  | some n =>
    simp only [Option.map_map, Option.map]
    congr 1
    by_cases hk : n.key = k <;> simp [hk, extSet, stripExt]

theorem getN_updateNode_extSet (g : DGraph) (k : Key) (e : Option Bool) (a : Key) :
    stripExt ((g.updateNode k (extSet e)).getN a) = stripExt (g.getN a) := by
  have h := node?_updateNode g k a (extSet e) (fun n => rfl)
  unfold DGraph.getN
  rw [h]
  cases hn : g.node? a with
  | none => rfl
  | some n =>
    simp only [Option.map_some, Option.getD_some]
    by_cases hk : n.key = k <;> simp [hk, extSet, stripExt]

theorem getN_add_adj_other {g : DGraph} {k a : Key} (vals : List Pt)
    (hne : a ≠ k) (h : g.containsKey a) : (g.add_adj k vals).getN a = g.getN a := by
  unfold DGraph.add_adj DGraph.getN
  rw [node?_addAdjAux_other k vals g _ a hne h]

theorem adj_suffix_add_adj {g : DGraph} {k : Key} (vals : List Pt)
    (h : g.containsKey k) :
    ∃ t, ((g.add_adj k vals).getN k).adj_lst = (g.getN k).adj_lst ++ t := by
  obtain ⟨t, hnode, _, _, _⟩ := addAdjAux_spec k vals g (k :: (g.getN k).adj_lst) h (by simp)
  obtain ⟨n, hn⟩ := Option.isSome_iff_exists.mp h
  refine ⟨t, ?_⟩
  have hgoal : (g.add_adj k vals).node? k =
      (g.node? k).map (fun m => { m with adj_lst := m.adj_lst ++ t }) := hnode
  show (((g.add_adj k vals).node? k).getD default).adj_lst
      = ((g.node? k).getD default).adj_lst ++ t
  rw [hgoal, hn]
  simp

theorem mem_adj_add_adj {g : DGraph} {k : Key} {v : Pt} {vals : List Pt}
    (hv : v ∈ vals) (h : g.containsKey k) (hne : vector2hash v g.tol ≠ k) :
    vector2hash v g.tol ∈ ((g.add_adj k vals).getN k).adj_lst := by
  obtain ⟨t, hnode, _, _, hall⟩ := addAdjAux_spec k vals g (k :: (g.getN k).adj_lst) h (by simp)
  obtain ⟨n, hn⟩ := Option.isSome_iff_exists.mp h
  have hadj : ((g.add_adj k vals).getN k).adj_lst = (g.getN k).adj_lst ++ t := by
    have hgoal : (g.add_adj k vals).node? k =
        (g.node? k).map (fun m => { m with adj_lst := m.adj_lst ++ t }) := hnode
    show (((g.add_adj k vals).node? k).getD default).adj_lst
        = ((g.node? k).getD default).adj_lst ++ t
    rw [hgoal, hn]
    simp
  rw [hadj]
  rcases hall v hv with hs | ht
  · rcases List.mem_cons.mp hs with hs | hs
    · exact absurd hs hne
    · exact List.mem_append_left _ hs
  · exact List.mem_append_right _ ht

theorem containsKey_add_adj_mono {g : DGraph} {k k' : Key} (vals : List Pt)
    (h : g.containsKey k') : (g.add_adj k vals).containsKey k' :=
  containsKey_addAdjAux_mono k vals g _ k' h

theorem getN_remove_adj_self {g : DGraph} {k : Key} (ks : List Key)
    (h : g.containsKey k) :
    ((g.remove_adj k ks).getN k).adj_lst =
      (g.getN k).adj_lst.filter (fun a => decide (a ∉ ks)) := by
  obtain ⟨n, hn⟩ := Option.isSome_iff_exists.mp h
  unfold DGraph.remove_adj DGraph.getN
  rw [node?_updateNode g k k (adjFilter ks) (fun n => rfl), hn]
  simp [node?_some_key hn, adjFilter]

theorem getN_remove_adj_other {g : DGraph} {k a : Key} (ks : List Key)
    (hne : a ≠ k) : (g.remove_adj k ks).getN a = g.getN a := by
  unfold DGraph.remove_adj DGraph.getN
  rw [node?_updateNode g k a (adjFilter ks) (fun n => rfl)]
  cases hn : g.node? a with
  | none => rfl
  | some n =>
    have := node?_some_key hn
    simp [this, hne]

theorem hasEdge_add_node_mono {g : DGraph} {a b : Key} (v : Pt) (adj : List Pt)
    (e : Option Bool) (hpres : g.containsKey a) (h : g.hasEdge a b) :
    (g.add_node v adj e).1.hasEdge a b := by
  rw [add_node_fst]
  set nk := vector2hash v g.tol with hnk
  have hck : (g.checkMake nk v e).getN a = g.getN a := by
    unfold DGraph.getN
    by_cases hak : a = nk
    · subst hak
      rw [checkMake_present]
      unfold DGraph.containsKey at hpres
      exact hpres
    · rw [node?_checkMake_other hak]
  have hckc : (g.checkMake nk v e).containsKey a := containsKey_checkMake_mono nk v e hpres
  have hmid : b ∈ (((g.checkMake nk v e).add_adj nk adj).getN a).adj_lst := by
    by_cases hak : a = nk
    · subst hak
      obtain ⟨t, ht⟩ := adj_suffix_add_adj adj hckc
      rw [ht, hck]
      exact List.mem_append_left _ h
    · rw [getN_add_adj_other adj hak hckc, hck]
      exact h
  split
  · unfold DGraph.hasEdge
    have := getN_updateNode_extSet ((g.checkMake nk v e).add_adj nk adj) nk e a
    unfold stripExt at this
    have hadj : (((((g.checkMake nk v e).add_adj nk adj)).updateNode nk
        (extSet e)).getN a).adj_lst =
        ((((g.checkMake nk v e).add_adj nk adj)).getN a).adj_lst := by
      have h4 := congrArg (fun q => q.2.2.2) this
      simpa using h4
    rw [hadj]
    exact hmid
  · exact hmid

theorem getN_updateNode_extSet_adj (g : DGraph) (k : Key) (e : Option Bool) (a : Key) :
    ((g.updateNode k (extSet e)).getN a).adj_lst = (g.getN a).adj_lst := by
  have h := congrArg (fun q => q.2.2.2) (getN_updateNode_extSet g k e a)
  simpa [stripExt] using h

theorem getN_updateNode_extSet_pt (g : DGraph) (k : Key) (e : Option Bool) (a : Key) :
    ((g.updateNode k (extSet e)).getN a).pt = (g.getN a).pt := by
  have h := congrArg (fun q => q.2.1) (getN_updateNode_extSet g k e a)
  simpa [stripExt] using h

/-- Claim C2: for nodes `left` and `right` in the graph with `right` adjacent
to `left`, and a new point whose key differs from both, `insert_node`
returns the new point's key, gives the new node `right` as an adjacency,
adds the new node to `left`'s adjacency list, and removes `right` from
`left`'s adjacency list. -/
theorem insert_node_subdivides (g : DGraph) (nodeK nextK : Key) (newVal : Pt)
    (ext : Option Bool)
    (hcons : KeysConsistent g)
    (h1 : g.containsKey nodeK) (h2 : g.containsKey nextK)
    (_hadj : g.hasEdge nodeK nextK)
    (hn1 : vector2hash newVal g.tol ≠ nodeK)
    (hn2 : vector2hash newVal g.tol ≠ nextK) :
    (g.insert_node nodeK newVal nextK ext).2 = vector2hash newVal g.tol ∧
    (g.insert_node nodeK newVal nextK ext).1.hasEdge (vector2hash newVal g.tol) nextK ∧
    (g.insert_node nodeK newVal nextK ext).1.hasEdge nodeK (vector2hash newVal g.tol) ∧
    ¬ (g.insert_node nodeK newVal nextK ext).1.hasEdge nodeK nextK := by
  set nk := vector2hash newVal g.tol with hnk
  set nextPt := (g.getN nextK).pt with hnextPt
  set A := (g.add_node newVal [nextPt] ext).1 with hA
  set g2 := A.add_adj nodeK [(A.getN nk).pt] with hg2
  have hres : g.insert_node nodeK newVal nextK ext = (g2.remove_adj nodeK [nextK], nk) := by
    show (if nk = nextK ∨ nk = nodeK then (g2, nk) else (g2.remove_adj nodeK [nextK], nk)) = _
    rw [if_neg (by push_neg; exact ⟨hn2, hn1⟩)]
  have hAtol : A.tol = g.tol := tol_add_node g newVal [nextPt] ext
  have hAcons : KeysConsistent A := keysConsistent_add_node newVal [nextPt] ext hcons
  have hAnk : A.containsKey nk := containsKey_add_node_self g newVal [nextPt] ext
  have hAnodeK : A.containsKey nodeK := containsKey_add_node_mono newVal [nextPt] ext h1
  have hhashNextPt : vector2hash nextPt g.tol = nextK := hash_getN_pt hcons h2
  -- the new node gets `right` as an adjacency inside `add_node`
  have hA_edge : nextK ∈ (A.getN nk).adj_lst := by
    rw [hA, add_node_fst]
    have hckc : (g.checkMake nk newVal ext).containsKey nk :=
      containsKey_checkMake_self g nk newVal ext
    have htolck : (g.checkMake nk newVal ext).tol = g.tol := tol_checkMake g nk newVal ext
    have hmem : nextK ∈
        (((g.checkMake nk newVal ext).add_adj nk [nextPt]).getN nk).adj_lst := by
      have := mem_adj_add_adj (g := g.checkMake nk newVal ext)
        (show nextPt ∈ [nextPt] by simp) hckc
        (by rw [htolck, hhashNextPt]; exact fun hc => hn2 hc.symm)
      rwa [htolck, hhashNextPt] at this
    split
    · rw [getN_updateNode_extSet_adj]
      exact hmem
    · exact hmem
  -- the point stored at the new key hashes back to it
  have hptnk : vector2hash (A.getN nk).pt g.tol = nk := by
    have := hash_getN_pt hAcons hAnk
    rwa [hAtol] at this
  -- `add_adj` puts the new node into `left`'s adjacency list
  have hg2_left : nk ∈ (g2.getN nodeK).adj_lst := by
    have := mem_adj_add_adj (g := A) (show (A.getN nk).pt ∈ [(A.getN nk).pt] by simp)
      hAnodeK (by rw [hAtol, hptnk]; exact hn1)
    rwa [hAtol, hptnk] at this
  have hg2_nk : g2.getN nk = A.getN nk := getN_add_adj_other _ hn1 hAnk
  have hg2_nodeK : g2.containsKey nodeK := containsKey_add_adj_mono _ hAnodeK
  refine ⟨by rw [hres], ?_, ?_, ?_⟩
  · show nextK ∈ (((g.insert_node nodeK newVal nextK ext).1).getN nk).adj_lst
    rw [hres]
    show nextK ∈ ((g2.remove_adj nodeK [nextK]).getN nk).adj_lst
    rw [getN_remove_adj_other _ hn1, hg2_nk]
    exact hA_edge
  · show nk ∈ (((g.insert_node nodeK newVal nextK ext).1).getN nodeK).adj_lst
    rw [hres]
    show nk ∈ ((g2.remove_adj nodeK [nextK]).getN nodeK).adj_lst
    rw [getN_remove_adj_self _ hg2_nodeK]
    rw [List.mem_filter]
    exact ⟨hg2_left, by simpa using hn2⟩
  · show ¬ nextK ∈ (((g.insert_node nodeK newVal nextK ext).1).getN nodeK).adj_lst
    rw [hres]
    show ¬ nextK ∈ ((g2.remove_adj nodeK [nextK]).getN nodeK).adj_lst
    rw [getN_remove_adj_self _ hg2_nodeK]
    intro hmem
    rw [List.mem_filter] at hmem
    simpa using hmem.2

theorem num_nodes_updateNode_extSet (g : DGraph) (k : Key) (e : Option Bool) :
    (g.updateNode k (extSet e)).num_nodes = g.num_nodes := rfl

/-- Claim C3: when the new point's key coincides with either endpoint of the
subdivided edge, `insert_node` returns that endpoint's key and leaves the
graph structurally unchanged: `num_nodes` and, for every key, the stored
node's key, point, order and adjacency list are untouched (only the
`exterior` flag may be overwritten by the inner `add_node`). -/
theorem insert_node_coincident (g : DGraph) (nodeK nextK : Key) (newVal : Pt)
    (ext : Option Bool)
    (hcons : KeysConsistent g)
    (h1 : g.containsKey nodeK) (h2 : g.containsKey nextK)
    (hadj : g.hasEdge nodeK nextK)
    (hco : vector2hash newVal g.tol = nodeK ∨ vector2hash newVal g.tol = nextK) :
    (g.insert_node nodeK newVal nextK ext).2 = vector2hash newVal g.tol ∧
    (g.insert_node nodeK newVal nextK ext).1.num_nodes = g.num_nodes ∧
    ∀ k', ((g.insert_node nodeK newVal nextK ext).1.node? k').map stripExt =
      (g.node? k').map stripExt := by
  set nk := vector2hash newVal g.tol with hnk
  set nextPt := (g.getN nextK).pt with hnextPt
  have hhashNextPt : vector2hash nextPt g.tol = nextK := hash_getN_pt hcons h2
  -- the coincident key is present in the graph
  have hnkpres : g.containsKey nk := by rcases hco with h | h <;> rw [h] <;> assumption
  -- `_check_and_make_node` is a no-op
  have hck : g.checkMake nk newVal ext = g := checkMake_present hnkpres
  -- the inner `add_adj` of `add_node` is a no-op
  have hadd : g.add_adj nk [nextPt] = g := by
    apply addAdjAux_all_seen
    intro w hw
    rcases List.mem_singleton.mp hw with rfl
    rw [hhashNextPt]
    rcases hco with h | h
    · rw [h]
      exact List.mem_cons_of_mem _ hadj
    · rw [h]
      exact List.mem_cons_self _ _
  -- the graph after `add_node` differs from `g` at most in an exterior flag
  set A := (g.add_node newVal [nextPt] ext).1 with hA
  have hAeq : A = if ext.isSome then g.updateNode nk (extSet ext) else g := by
    rw [hA, add_node_fst, ← hnk, hck, hadd]
  have hAstrip : ∀ k', (A.node? k').map stripExt = (g.node? k').map stripExt := by
    intro k'
    rw [hAeq]
    split
    · exact node?_updateNode_extSet g nk ext k'
    · rfl
  have hAnum : A.num_nodes = g.num_nodes := by
    rw [hAeq]; split
    · exact num_nodes_updateNode_extSet g nk ext
    · rfl
  have hAtol : A.tol = g.tol := tol_add_node g newVal [nextPt] ext
  have hAadjKeep : ∀ a, (A.getN a).adj_lst = (g.getN a).adj_lst := by
    intro a
    rw [hAeq]; split
    · exact getN_updateNode_extSet_adj g nk ext a
    · rfl
  have hAptKeep : ∀ a, (A.getN a).pt = (g.getN a).pt := by
    intro a
    rw [hAeq]; split
    · exact getN_updateNode_extSet_pt g nk ext a
    · rfl
  -- the outer `add_adj` on the left node is also a no-op
  have hadd2 : A.add_adj nodeK [(A.getN nk).pt] = A := by
    apply addAdjAux_all_seen
    intro w hw
    rcases List.mem_singleton.mp hw with rfl
    rw [hAtol, hAptKeep nk, hAadjKeep nodeK]
    rcases hco with h | h
    · rw [h, hash_getN_pt hcons h1]
      exact List.mem_cons_self _ _
    · rw [h, hhashNextPt]
      exact List.mem_cons_of_mem _ hadj
  have hres : g.insert_node nodeK newVal nextK ext = (A, nk) := by
    show (if nk = nextK ∨ nk = nodeK
          then (A.add_adj nodeK [(A.getN nk).pt], nk)
          else ((A.add_adj nodeK [(A.getN nk).pt]).remove_adj nodeK [nextK], nk)) = _
    rw [hadd2, if_pos (by rcases hco with h | h
                          · exact Or.inr h
                          · exact Or.inl h)]
  rw [hres]
  exact ⟨rfl, hAnum, hAstrip⟩

/-- A concrete two-node graph (tolerance `1/10`) with the bidirectional edge
`(0,0) ↔ (2,0)`, used to instantiate the `insert_node` theorems. -/
def gW : DGraph :=
  (((DGraph.empty (1 / 10)).add_node (0, 0) [(2, 0)] none).1.add_node
    (2, 0) [(0, 0)] none).1

/-- Witness for C2 at a concrete edge subdivision. -/
theorem insert_node_subdivides_witness :
    (gW.insert_node (0, 0) (1, 0) (2, 0) none).2 = vector2hash (1, 0) gW.tol ∧
    (gW.insert_node (0, 0) (1, 0) (2, 0) none).1.hasEdge (vector2hash (1, 0) gW.tol) (2, 0) ∧
    (gW.insert_node (0, 0) (1, 0) (2, 0) none).1.hasEdge (0, 0) (vector2hash (1, 0) gW.tol) ∧
    ¬ (gW.insert_node (0, 0) (1, 0) (2, 0) none).1.hasEdge (0, 0) (2, 0) :=
  insert_node_subdivides gW (0, 0) (2, 0) (1, 0) none
    (by with_unfolding_all decide) (by with_unfolding_all decide)
    (by with_unfolding_all decide) (by with_unfolding_all decide)
    (by with_unfolding_all decide) (by with_unfolding_all decide)

/-- Witness for C3: the inserted point `(1/100, 0)` hashes onto the left
endpoint `(0,0)` at tolerance `1/10`. -/
theorem insert_node_coincident_witness :
    (gW.insert_node (0, 0) (1 / 100, 0) (2, 0) none).2 =
      vector2hash (1 / 100, 0) gW.tol ∧
    (gW.insert_node (0, 0) (1 / 100, 0) (2, 0) none).1.num_nodes = gW.num_nodes ∧
    ∀ k', ((gW.insert_node (0, 0) (1 / 100, 0) (2, 0) none).1.node? k').map stripExt =
      (gW.node? k').map stripExt :=
  insert_node_coincident gW (0, 0) (2, 0) (1 / 100, 0) none
    (by with_unfolding_all decide) (by with_unfolding_all decide)
    (by with_unfolding_all decide) (by with_unfolding_all decide)
    (by with_unfolding_all decide)

/-! ## Invariant preservation for `remove_adj` and `insert_node` (C8, C9) -/

theorem find?_key_of_mem (l : List GNode) (hnd : (l.map (·.key)).Nodup) {m : GNode}
    (hm : m ∈ l) : l.find? (fun n => decide (n.key = m.key)) = some m := by
  induction l with
  | nil => cases hm
  | cons a t ih =>
    simp only [List.map_cons, List.nodup_cons] at hnd
    rcases List.mem_cons.mp hm with rfl | hmt
    · simp [List.find?_cons]
    · have hne : ¬a.key = m.key := by
        intro he
        exact hnd.1 (he ▸ List.mem_map_of_mem (·.key) hmt)
      have hdec : (decide (a.key = m.key)) = false := by simp [hne]
      simp only [List.find?_cons, hdec]
      exact ih hnd.2 hmt

theorem node?_eq_of_mem {g : DGraph} {m : GNode} (hnd : KeysNodup g) (hm : m ∈ g.dg) :
    g.node? m.key = some m := find?_key_of_mem g.dg hnd hm

theorem adjOk_updateNode_extSet {g : DGraph} {k : Key} {e : Option Bool}
    (h : AdjOk g) : AdjOk (g.updateNode k (extSet e)) := by
  intro n hn
  simp only [DGraph.updateNode, List.mem_map] at hn
  obtain ⟨m, hm, hfm⟩ := hn
  have := h m hm
  by_cases hmk : m.key = k
  · rw [if_pos hmk] at hfm; rw [← hfm]; exact this
  · rw [if_neg hmk] at hfm; rw [← hfm]; exact this

theorem adjOk_remove_adj {g : DGraph} (k : Key) (ks : List Key)
    (h : AdjOk g) : AdjOk (g.remove_adj k ks) := by
  intro n hn
  simp only [DGraph.remove_adj, DGraph.updateNode, List.mem_map] at hn
  obtain ⟨m, hm, hfm⟩ := hn
  obtain ⟨hm1, hm2⟩ := h m hm
  by_cases hmk : m.key = k
  · rw [if_pos hmk] at hfm
    rw [← hfm]
    refine ⟨hm1.filter _, ?_⟩
    show ¬ m.key ∈ m.adj_lst.filter (fun a => decide (a ∉ ks))
    intro hmem
    exact hm2 (List.mem_of_mem_filter hmem)
  · rw [if_neg hmk] at hfm; rw [← hfm]; exact ⟨hm1, hm2⟩

theorem adjOk_checkMake {g : DGraph} {k : Key} {v : Pt} {e : Option Bool}
    (h : AdjOk g) : AdjOk (g.checkMake k v e) := by
  unfold DGraph.checkMake
  split
  · exact h
  · intro n hn
    rcases List.mem_append.mp hn with hn | hn
    · exact h n hn
    · rcases List.mem_singleton.mp hn with rfl
      exact ⟨List.nodup_nil, by simp⟩

theorem adjOk_addAdjAux (k : Key) (vals : List Pt) :
    ∀ (g : DGraph) (seen : List Key), KeysNodup g → AdjOk g → k ∈ seen →
    (∀ s ∈ (g.getN k).adj_lst, s ∈ seen) →
    AdjOk (g.addAdjAux k seen vals) := by
  induction vals with
  | nil => intro g seen _ h _ _; exact h
  | cons v rest ih =>
    intro g seen hnd hok hkseen hsub
    unfold DGraph.addAdjAux
    split
    · exact ih g seen hnd hok hkseen hsub
    · rename_i hnmem
      set ak := vector2hash v g.tol with hak
      set gc := g.checkMake ak v none with hgc
      have hndc : KeysNodup gc := keysNodup_checkMake hnd
      have hokc : AdjOk gc := adjOk_checkMake hok
      have hsubc : ∀ s ∈ (gc.getN k).adj_lst, s ∈ seen := by
        intro s hs
        apply hsub
        have hkne : ak ≠ k := fun h => hnmem (h ▸ hkseen)
        have : gc.node? k = g.node? k := node?_checkMake_other (Ne.symm hkne)
        unfold DGraph.getN at hs ⊢
        rwa [this] at hs
      apply ih _ _ (keysNodup_updateNode _ k (adjAppend ak) (fun n => rfl) hndc)
      · -- AdjOk after appending `ak` to node `k`
        intro n hn
        simp only [DGraph.updateNode, List.mem_map] at hn
        obtain ⟨m, hm, hfm⟩ := hn
        by_cases hmk : m.key = k
        · rw [if_pos hmk] at hfm
          have hmG : gc.node? k = some m := by
            have := node?_eq_of_mem hndc hm
            rwa [hmk] at this
          have hmGet : gc.getN k = m := getN_of_node? hmG
          obtain ⟨hm1, hm2⟩ := hokc m hm
          have hadjsub : ∀ s ∈ m.adj_lst, s ∈ seen := by
            intro s hs
            exact hsubc s (by rw [hmGet]; exact hs)
          rw [← hfm]
          constructor
          · show (m.adj_lst ++ [ak]).Nodup
            rw [List.nodup_append]
            refine ⟨hm1, List.nodup_singleton _, ?_⟩
            intro x hx
            simp only [List.mem_singleton]
            intro hxk
            exact hnmem (hxk ▸ hadjsub x hx)
          · show ¬ (adjAppend ak m).key ∈ m.adj_lst ++ [ak]
            have hkeq : (adjAppend ak m).key = m.key := rfl
            rw [hkeq]
            intro hmem
            rcases List.mem_append.mp hmem with hmem | hmem
            · exact hm2 hmem
            · rcases List.mem_singleton.mp hmem with hmk2
              apply hnmem
              rw [← hmk2, hmk]
              exact hkseen
        · rw [if_neg hmk] at hfm; rw [← hfm]; exact hokc m hm
      · exact List.mem_cons_of_mem _ hkseen
      · -- adjacency of node `k` after the append is within `ak :: seen`
        intro s hs
        by_cases hck : gc.containsKey k
        · obtain ⟨n, hn⟩ := Option.isSome_iff_exists.mp hck
          have hupd := node?_updateNode gc k k (adjAppend ak) (fun n => rfl)
          rw [hn] at hupd
          have hgetd : (gc.updateNode k (adjAppend ak)).getN k = adjAppend ak n := by
            unfold DGraph.getN
            rw [hupd]
            simp [node?_some_key hn]
          rw [hgetd] at hs
          have hs2 : s ∈ n.adj_lst ++ [ak] := hs
          rcases List.mem_append.mp hs2 with hs3 | hs3
          · exact List.mem_cons_of_mem _ (hsubc s (by rw [getN_of_node? hn]; exact hs3))
          · rcases List.mem_singleton.mp hs3 with rfl
            exact List.mem_cons_self _ _
        · have hnone : gc.node? k = none := by
            cases hq : gc.node? k with
            | none => rfl
            | some x => exact absurd (by simp [DGraph.containsKey, hq]) hck
          have hupd2 : (gc.updateNode k (adjAppend ak)).node? k = none := by
            rw [node?_updateNode gc k k (adjAppend ak) (fun n => rfl), hnone]
            rfl
          unfold DGraph.getN at hs
          rw [hupd2] at hs
          have hemp : ((none : Option GNode).getD default).adj_lst = [] := rfl
          rw [hemp] at hs
          exact absurd hs (List.not_mem_nil s)

theorem adjOk_add_adj {g : DGraph} (k : Key) (vals : List Pt)
    (hnd : KeysNodup g) (hok : AdjOk g) : AdjOk (g.add_adj k vals) :=
  adjOk_addAdjAux k vals g (k :: (g.getN k).adj_lst) hnd hok (List.mem_cons_self _ _)
    (fun s hs => List.mem_cons_of_mem _ hs)

theorem keysNodup_add_adj {g : DGraph} (k : Key) (vals : List Pt)
    (hnd : KeysNodup g) : KeysNodup (g.add_adj k vals) :=
  keysNodup_addAdjAux k vals g _ hnd

theorem adjOk_add_node {g : DGraph} (v : Pt) (adj : List Pt) (e : Option Bool)
    (hnd : KeysNodup g) (hok : AdjOk g) : AdjOk (g.add_node v adj e).1 := by
  rw [add_node_fst]
  have h1 : AdjOk ((g.checkMake (vector2hash v g.tol) v e).add_adj
      (vector2hash v g.tol) adj) :=
    adjOk_add_adj _ adj (keysNodup_checkMake hnd) (adjOk_checkMake hok)
  split
  · exact adjOk_updateNode_extSet h1
  · exact h1

theorem tol_remove_adj (g : DGraph) (k : Key) (ks : List Key) :
    (g.remove_adj k ks).tol = g.tol := rfl

theorem num_nodes_remove_adj (g : DGraph) (k : Key) (ks : List Key) :
    (g.remove_adj k ks).num_nodes = g.num_nodes := rfl

theorem containsKey_remove_adj {g : DGraph} {k' : Key} (k : Key) (ks : List Key)
    (h : g.containsKey k') : (g.remove_adj k ks).containsKey k' :=
  containsKey_updateNode k (adjFilter ks) (fun n => rfl) h

theorem keysConsistent_remove_adj {g : DGraph} (k : Key) (ks : List Key)
    (h : KeysConsistent g) : KeysConsistent (g.remove_adj k ks) :=
  keysConsistent_updateNode g k (adjFilter ks) (fun n => ⟨rfl, rfl⟩) h

theorem keysNodup_remove_adj {g : DGraph} (k : Key) (ks : List Key)
    (h : KeysNodup g) : KeysNodup (g.remove_adj k ks) :=
  keysNodup_updateNode g k (adjFilter ks) (fun n => rfl) h

theorem insert_node_eq (g : DGraph) (nodeK : Key) (newVal : Pt) (nextK : Key)
    (ext : Option Bool) :
    g.insert_node nodeK newVal nextK ext =
      (if vector2hash newVal g.tol = nextK ∨ vector2hash newVal g.tol = nodeK
       then ((g.add_node newVal [(g.getN nextK).pt] ext).1.add_adj nodeK
              [((g.add_node newVal [(g.getN nextK).pt] ext).1.getN
                 (vector2hash newVal g.tol)).pt], vector2hash newVal g.tol)
       else (((g.add_node newVal [(g.getN nextK).pt] ext).1.add_adj nodeK
              [((g.add_node newVal [(g.getN nextK).pt] ext).1.getN
                 (vector2hash newVal g.tol)).pt]).remove_adj nodeK [nextK],
             vector2hash newVal g.tol)) := rfl

theorem tol_insert_node (g : DGraph) (nodeK : Key) (newVal : Pt) (nextK : Key)
    (ext : Option Bool) : (g.insert_node nodeK newVal nextK ext).1.tol = g.tol := by
  rw [insert_node_eq]
  split
  · show ((g.add_node newVal [(g.getN nextK).pt] ext).1.add_adj nodeK _).tol = g.tol
    rw [tol_add_adj, tol_add_node]
  · show (((g.add_node newVal [(g.getN nextK).pt] ext).1.add_adj nodeK
      _).remove_adj nodeK [nextK]).tol = g.tol
    rw [tol_remove_adj, tol_add_adj, tol_add_node]

theorem containsKey_insert_node_mono {g : DGraph} {k' : Key} (nodeK : Key) (newVal : Pt)
    (nextK : Key) (ext : Option Bool) (h : g.containsKey k') :
    (g.insert_node nodeK newVal nextK ext).1.containsKey k' := by
  rw [insert_node_eq]
  have h1 := containsKey_add_node_mono newVal [(g.getN nextK).pt] ext h
  have h2 : ((g.add_node newVal [(g.getN nextK).pt] ext).1.add_adj nodeK
      [((g.add_node newVal [(g.getN nextK).pt] ext).1.getN
        (vector2hash newVal g.tol)).pt]).containsKey k' :=
    containsKey_add_adj_mono _ h1
  split
  · exact h2
  · exact containsKey_remove_adj nodeK [nextK] h2

theorem containsKey_insert_node_newKey (g : DGraph) (nodeK : Key) (newVal : Pt)
    (nextK : Key) (ext : Option Bool) :
    (g.insert_node nodeK newVal nextK ext).1.containsKey
      (g.insert_node nodeK newVal nextK ext).2 := by
  rw [insert_node_eq]
  have h1 := containsKey_add_node_self g newVal [(g.getN nextK).pt] ext
  have h2 : ((g.add_node newVal [(g.getN nextK).pt] ext).1.add_adj nodeK
      [((g.add_node newVal [(g.getN nextK).pt] ext).1.getN
        (vector2hash newVal g.tol)).pt]).containsKey (vector2hash newVal g.tol) :=
    containsKey_add_adj_mono _ h1
  split
  · exact h2
  · exact containsKey_remove_adj nodeK [nextK] h2

theorem num_nodes_insert_node_le (g : DGraph) (nodeK : Key) (newVal : Pt)
    (nextK : Key) (ext : Option Bool) :
    g.num_nodes ≤ (g.insert_node nodeK newVal nextK ext).1.num_nodes := by
  rw [insert_node_eq]
  have h1 := num_nodes_add_node_le g newVal [(g.getN nextK).pt] ext
  have h2 : ((g.add_node newVal [(g.getN nextK).pt] ext).1).num_nodes ≤
      ((g.add_node newVal [(g.getN nextK).pt] ext).1.add_adj nodeK
        [((g.add_node newVal [(g.getN nextK).pt] ext).1.getN
          (vector2hash newVal g.tol)).pt]).num_nodes :=
    num_nodes_addAdjAux_le nodeK _ _ _
  split
  · exact le_trans h1 h2
  · show g.num_nodes ≤ (DGraph.remove_adj _ nodeK [nextK]).num_nodes
    rw [num_nodes_remove_adj]
    exact le_trans h1 h2

theorem keysConsistent_insert_node {g : DGraph} (nodeK : Key) (newVal : Pt)
    (nextK : Key) (ext : Option Bool) (h : KeysConsistent g) :
    KeysConsistent (g.insert_node nodeK newVal nextK ext).1 := by
  rw [insert_node_eq]
  have h1 := keysConsistent_add_node newVal [(g.getN nextK).pt] ext h
  have h2 : KeysConsistent ((g.add_node newVal [(g.getN nextK).pt] ext).1.add_adj nodeK
      [((g.add_node newVal [(g.getN nextK).pt] ext).1.getN
        (vector2hash newVal g.tol)).pt]) :=
    keysConsistent_addAdjAux nodeK _ _ _ h1
  split
  · exact h2
  · exact keysConsistent_remove_adj nodeK [nextK] h2

theorem keysNodup_insert_node {g : DGraph} (nodeK : Key) (newVal : Pt)
    (nextK : Key) (ext : Option Bool) (h : KeysNodup g) :
    KeysNodup (g.insert_node nodeK newVal nextK ext).1 := by
  rw [insert_node_eq]
  have h1 := keysNodup_add_node newVal [(g.getN nextK).pt] ext h
  have h2 : KeysNodup ((g.add_node newVal [(g.getN nextK).pt] ext).1.add_adj nodeK
      [((g.add_node newVal [(g.getN nextK).pt] ext).1.getN
        (vector2hash newVal g.tol)).pt]) :=
    keysNodup_addAdjAux nodeK _ _ _ h1
  split
  · exact h2
  · exact keysNodup_remove_adj nodeK [nextK] h2

theorem adjOk_insert_node {g : DGraph} (nodeK : Key) (newVal : Pt)
    (nextK : Key) (ext : Option Bool) (hnd : KeysNodup g) (hok : AdjOk g) :
    AdjOk (g.insert_node nodeK newVal nextK ext).1 := by
  rw [insert_node_eq]
  have h1 := adjOk_add_node newVal [(g.getN nextK).pt] ext hnd hok
  have hnd1 := keysNodup_add_node newVal [(g.getN nextK).pt] ext hnd
  have h2 : AdjOk ((g.add_node newVal [(g.getN nextK).pt] ext).1.add_adj nodeK
      [((g.add_node newVal [(g.getN nextK).pt] ext).1.getN
        (vector2hash newVal g.tol)).pt]) :=
    adjOk_add_adj nodeK _ hnd1 h1
  split
  · exact h2
  · exact adjOk_remove_adj nodeK [nextK] h2

/-! ## Properties of the intersection phases -/

theorem foldl_spliceStep_none (oracle : Seg → Seg → Option Pt) (seg : Seg)
    (keys : List Key) : keys.foldl (spliceStep oracle seg) none = none := by
  induction keys with
  | nil => rfl
  | cons k rest ih => exact ih

theorem spliceStep_empty {g : DGraph} {k : Key} (oracle : Seg → Seg → Option Pt)
    (seg : Seg) (ks : List Key) (h1 : (g.getN k).adj_lst.head? = none) :
    spliceStep oracle seg (some (g, ks)) k = none := by
  show (match (g.getN k).adj_lst.head? with
    | none => none
    | some nextK =>
      match oracle ((g.getN k).pt, (g.getN nextK).pt) seg with
      | none => some (g, ks)
      | some p => some ((g.insert_node k p nextK (some false)).1,
          ks ++ [(g.insert_node k p nextK (some false)).2])) = none
  rw [h1]

theorem spliceStep_noint {g : DGraph} {k nextK : Key} (oracle : Seg → Seg → Option Pt)
    (seg : Seg) (ks : List Key) (h1 : (g.getN k).adj_lst.head? = some nextK)
    (h2 : oracle ((g.getN k).pt, (g.getN nextK).pt) seg = none) :
    spliceStep oracle seg (some (g, ks)) k = some (g, ks) := by
  show (match (g.getN k).adj_lst.head? with
    | none => none
    | some nextK =>
      match oracle ((g.getN k).pt, (g.getN nextK).pt) seg with
      | none => some (g, ks)
      | some p => some ((g.insert_node k p nextK (some false)).1,
          ks ++ [(g.insert_node k p nextK (some false)).2])) = some (g, ks)
  rw [h1]
  show (match oracle ((g.getN k).pt, (g.getN nextK).pt) seg with
    | none => some (g, ks)
    | some p => some ((g.insert_node k p nextK (some false)).1,
        ks ++ [(g.insert_node k p nextK (some false)).2])) = some (g, ks)
  rw [h2]

theorem spliceStep_int {g : DGraph} {k nextK : Key} {p : Pt}
    (oracle : Seg → Seg → Option Pt) (seg : Seg) (ks : List Key)
    (h1 : (g.getN k).adj_lst.head? = some nextK)
    (h2 : oracle ((g.getN k).pt, (g.getN nextK).pt) seg = some p) :
    spliceStep oracle seg (some (g, ks)) k =
      some ((g.insert_node k p nextK (some false)).1,
        ks ++ [(g.insert_node k p nextK (some false)).2]) := by
  show (match (g.getN k).adj_lst.head? with
    | none => none
    | some nextK =>
      match oracle ((g.getN k).pt, (g.getN nextK).pt) seg with
      | none => some (g, ks)
      | some p => some ((g.insert_node k p nextK (some false)).1,
          ks ++ [(g.insert_node k p nextK (some false)).2])) = _
  rw [h1]
  show (match oracle ((g.getN k).pt, (g.getN nextK).pt) seg with
    | none => some (g, ks)
    | some p => some ((g.insert_node k p nextK (some false)).1,
        ks ++ [(g.insert_node k p nextK (some false)).2])) = _
  rw [h2]

theorem foldl_spliceStep_props (oracle : Seg → Seg → Option Pt) (seg : Seg)
    (keys : List Key) :
    ∀ (g : DGraph) (ks : List Key) (q : DGraph × List Key),
    keys.foldl (spliceStep oracle seg) (some (g, ks)) = some q →
    (∀ k', g.containsKey k' → q.1.containsKey k') ∧
    g.num_nodes ≤ q.1.num_nodes ∧ q.1.tol = g.tol ∧
    (KeysConsistent g → KeysConsistent q.1) ∧
    (KeysNodup g ∧ AdjOk g → KeysNodup q.1 ∧ AdjOk q.1) ∧
    ((∀ k ∈ ks, g.containsKey k) → ∀ k ∈ q.2, q.1.containsKey k) := by
  induction keys with
  | nil =>
    intro g ks q h
    simp only [List.foldl_nil, Option.some_inj] at h
    subst h
    exact ⟨fun _ h => h, le_refl _, rfl, id, id, fun hk => hk⟩
  | cons key rest ih =>
    intro g ks q h
    rw [List.foldl_cons] at h
    cases h1 : (g.getN key).adj_lst.head? with
    | none =>
      rw [spliceStep_empty oracle seg ks h1] at h
      rw [foldl_spliceStep_none] at h
      cases h
    | some nextK =>
      cases h2 : oracle ((g.getN key).pt, (g.getN nextK).pt) seg with
      | none =>
        rw [spliceStep_noint oracle seg ks h1 h2] at h
        exact ih g ks q h
      | some p =>
        rw [spliceStep_int oracle seg ks h1 h2] at h
        obtain ⟨hmono, hnum, htol, hkc, hkn, hkeys⟩ :=
          ih (g.insert_node key p nextK (some false)).1
            (ks ++ [(g.insert_node key p nextK (some false)).2]) q h
        refine ⟨?_, ?_, ?_, ?_, ?_, ?_⟩
        · intro k' hk'
          exact hmono k' (containsKey_insert_node_mono key p nextK (some false) hk')
        · exact le_trans (num_nodes_insert_node_le g key p nextK (some false)) hnum
        · rw [htol, tol_insert_node]
        · intro hc
          exact hkc (keysConsistent_insert_node key p nextK (some false) hc)
        · intro hc
          exact hkn ⟨keysNodup_insert_node key p nextK (some false) hc.1,
            adjOk_insert_node key p nextK (some false) hc.1 hc.2⟩
        · intro hk
          apply hkeys
          intro k hkmem
          rcases List.mem_append.mp hkmem with hkmem | hkmem
          · exact containsKey_insert_node_mono key p nextK (some false) (hk k hkmem)
          · rcases List.mem_singleton.mp hkmem with rfl
            exact containsKey_insert_node_newKey g key p nextK (some false)

theorem foldl_pred {α : Type} (step : DGraph → α → DGraph) (P : DGraph → Prop)
    (hstep : ∀ g a, P g → P (step g a)) :
    ∀ (l : List α) (g : DGraph), P g → P (l.foldl step g) := by
  intro l
  induction l with
  | nil => intro g h; exact h
  | cons a rest ih => intro g h; exact ih (step g a) (hstep g a h)

theorem foldl_num_le (step : DGraph → ℕ → DGraph)
    (h : ∀ g a, g.num_nodes ≤ (step g a).num_nodes) :
    ∀ (l : List ℕ) (g : DGraph), g.num_nodes ≤ (l.foldl step g).num_nodes := by
  intro l
  induction l with
  | nil => intro g; exact le_refl _
  | cons a rest ih => intro g; exact le_trans (h g a) (ih (step g a))

theorem foldl_tol_eq (step : DGraph → ℕ → DGraph)
    (h : ∀ g a, (step g a).tol = g.tol) :
    ∀ (l : List ℕ) (g : DGraph), (l.foldl step g).tol = g.tol := by
  intro l
  induction l with
  | nil => intro g; rfl
  | cons a rest ih =>
    intro g
    rw [List.foldl_cons, ih (step g a), h]

theorem connect_step_props (g : DGraph) (v1 v2 : Pt) :
    (∀ k', g.containsKey k' →
      (((g.add_node v1 [v2] (some false)).1.add_node v2 [v1] (some false)).1).containsKey k') ∧
    g.num_nodes ≤
      (((g.add_node v1 [v2] (some false)).1.add_node v2 [v1] (some false)).1).num_nodes ∧
    (((g.add_node v1 [v2] (some false)).1.add_node v2 [v1] (some false)).1).tol = g.tol ∧
    (KeysConsistent g →
      KeysConsistent (((g.add_node v1 [v2] (some false)).1.add_node v2 [v1] (some false)).1)) ∧
    (KeysNodup g ∧ AdjOk g →
      KeysNodup (((g.add_node v1 [v2] (some false)).1.add_node v2 [v1] (some false)).1) ∧
      AdjOk (((g.add_node v1 [v2] (some false)).1.add_node v2 [v1] (some false)).1)) := by
  refine ⟨?_, ?_, ?_, ?_, ?_⟩
  · intro k' h
    exact containsKey_add_node_mono _ _ _ (containsKey_add_node_mono _ _ _ h)
  · exact le_trans (num_nodes_add_node_le _ _ _ _) (num_nodes_add_node_le _ _ _ _)
  · rw [tol_add_node, tol_add_node]
  · intro h
    exact keysConsistent_add_node _ _ _ (keysConsistent_add_node _ _ _ h)
  · intro h
    exact ⟨keysNodup_add_node _ _ _ (keysNodup_add_node _ _ _ h.1),
      adjOk_add_node _ _ _ (keysNodup_add_node _ _ _ h.1)
        (adjOk_add_node _ _ _ h.1 h.2)⟩

theorem connectPhase_props (g : DGraph) (ks : List Key) :
    (∀ k', g.containsKey k' → (connectPhase g ks).containsKey k') ∧
    g.num_nodes ≤ (connectPhase g ks).num_nodes ∧
    (connectPhase g ks).tol = g.tol ∧
    (KeysConsistent g → KeysConsistent (connectPhase g ks)) ∧
    (KeysNodup g ∧ AdjOk g → KeysNodup (connectPhase g ks) ∧ AdjOk (connectPhase g ks)) := by
  unfold connectPhase
  split
  · exact connect_step_props g _ _
  · split
    · unfold connectPairs
      refine ⟨?_, ?_, ?_, ?_, ?_⟩
      · intro k' h
        refine foldl_pred _ (fun h0 => h0.containsKey k') ?_ _ g h
        intro g0 i hg0
        exact (connect_step_props g0 _ _).1 k' hg0
      · refine foldl_num_le _ ?_ _ g
        intro g0 i
        exact (connect_step_props g0 _ _).2.1
      · refine foldl_tol_eq _ ?_ _ g
        intro g0 i
        exact (connect_step_props g0 _ _).2.2.1
      · intro h
        refine foldl_pred _ KeysConsistent ?_ _ g h
        intro g0 i hg0
        exact (connect_step_props g0 _ _).2.2.2.1 hg0
      · intro h
        refine foldl_pred _ (fun h0 => KeysNodup h0 ∧ AdjOk h0) ?_ _ g h
        intro g0 i hg0
        exact (connect_step_props g0 _ _).2.2.2.2 hg0
    · exact ⟨fun _ h => h, le_refl _, rfl, id, id⟩

theorem intersect_props {g g' : DGraph} {oracle : Seg → Seg → Option Pt} {seg : Seg}
    (h : g.intersect_graph_with_segment oracle seg = some g') :
    (∀ k', g.containsKey k' → g'.containsKey k') ∧ g.num_nodes ≤ g'.num_nodes ∧
    g'.tol = g.tol ∧ (KeysConsistent g → KeysConsistent g') ∧
    (KeysNodup g ∧ AdjOk g → KeysNodup g' ∧ AdjOk g') := by
  unfold DGraph.intersect_graph_with_segment at h
  cases hs : splicePhase oracle seg g with
  | none => rw [hs] at h; cases h
  | some q =>
    rw [hs] at h
    simp only [Option.map_some'] at h
    obtain rfl : connectPhase q.1 q.2 = g' := by
      cases h
      rfl
    obtain ⟨hmono, hnum, htol, hkc, hkn, _⟩ :=
      foldl_spliceStep_props oracle seg _ g [] q hs
    obtain ⟨cmono, cnum, ctol, ckc, ckn⟩ := connectPhase_props q.1 q.2
    refine ⟨?_, ?_, ?_, ?_, ?_⟩
    · intro k' hk'
      exact cmono k' (hmono k' hk')
    · exact le_trans hnum cnum
    · rw [ctol, htol]
    · intro hc
      exact ckc (hkc hc)
    · intro hc
      exact ckn (hkn hc)

/-! ## Operation sequences (claims C8 and C9) -/

/-- The mutating operations of the graph store, as invoked by a caller. -/
inductive GOp where
  | addNodeOp : Pt → List Pt → Option Bool → GOp
  | insertNodeOp : Key → Pt → Key → Option Bool → GOp
  | removeAdjOp : Key → List Key → GOp
  | intersectOp : (Seg → Seg → Option Pt) → Seg → GOp

/-- Apply one operation (`intersect_graph_with_segment` can fail on an
empty adjacency list; the others always succeed). -/
def applyGOp (g : DGraph) : GOp → Option DGraph
  | .addNodeOp v adj e => some (g.add_node v adj e).1
  | .insertNodeOp nk v xk e => some (g.insert_node nk v xk e).1
  | .removeAdjOp nk ks => some (g.remove_adj nk ks)
  | .intersectOp oracle seg => g.intersect_graph_with_segment oracle seg

/-- Run a sequence of operations, stopping at the first failure. -/
def runOps : DGraph → List GOp → Option DGraph
  | g, [] => some g
  | g, op :: rest =>
    match applyGOp g op with
    | none => none
    | some g1 => runOps g1 rest

theorem applyGOp_props {g g' : DGraph} {op : GOp} (h : applyGOp g op = some g') :
    (∀ k, g.containsKey k → g'.containsKey k) ∧ g.num_nodes ≤ g'.num_nodes ∧
    (KeysConsistent g → KeysConsistent g') ∧
    (KeysNodup g ∧ AdjOk g → KeysNodup g' ∧ AdjOk g') := by
  cases op with
  | addNodeOp v adj e =>
    obtain rfl : (g.add_node v adj e).1 = g' := by cases h; rfl
    exact ⟨fun k hk => containsKey_add_node_mono v adj e hk, num_nodes_add_node_le g v adj e,
      keysConsistent_add_node v adj e,
      fun hc => ⟨keysNodup_add_node v adj e hc.1, adjOk_add_node v adj e hc.1 hc.2⟩⟩
  | insertNodeOp nk v xk e =>
    obtain rfl : (g.insert_node nk v xk e).1 = g' := by cases h; rfl
    exact ⟨fun k hk => containsKey_insert_node_mono nk v xk e hk,
      num_nodes_insert_node_le g nk v xk e,
      keysConsistent_insert_node nk v xk e,
      fun hc => ⟨keysNodup_insert_node nk v xk e hc.1, adjOk_insert_node nk v xk e hc.1 hc.2⟩⟩
  | removeAdjOp nk ks =>
    obtain rfl : g.remove_adj nk ks = g' := by cases h; rfl
    refine ⟨fun k hk => containsKey_remove_adj nk ks hk, ?_,
      keysConsistent_remove_adj nk ks,
      fun hc => ⟨keysNodup_remove_adj nk ks hc.1, adjOk_remove_adj nk ks hc.2⟩⟩
    rw [num_nodes_remove_adj]
  | intersectOp oracle seg =>
    obtain ⟨hmono, hnum, _, hkc, hkn⟩ := intersect_props h
    exact ⟨hmono, hnum, hkc, hkn⟩

theorem runOps_props : ∀ (ops : List GOp) (g g' : DGraph), runOps g ops = some g' →
    (∀ k, g.containsKey k → g'.containsKey k) ∧ g.num_nodes ≤ g'.num_nodes ∧
    (KeysConsistent g → KeysConsistent g') ∧
    (KeysNodup g ∧ AdjOk g → KeysNodup g' ∧ AdjOk g') := by
  intro ops
  induction ops with
  | nil =>
    intro g g' h
    obtain rfl : g = g' := by cases h; rfl
    exact ⟨fun _ h => h, le_refl _, id, id⟩
  | cons op rest ih =>
    intro g g' h
    unfold runOps at h
    cases ha : applyGOp g op with
    | none => rw [ha] at h; cases h
    | some g1 =>
      rw [ha] at h
      obtain ⟨m1, n1, c1, d1⟩ := applyGOp_props ha
      obtain ⟨m2, n2, c2, d2⟩ := ih g1 g' h
      exact ⟨fun k hk => m2 k (m1 k hk), le_trans n1 n2,
        fun hc => c2 (c1 hc), fun hc => d2 (d1 hc)⟩

theorem remove_adj_frame (h0 : DGraph) (nk : Key) (ks : List Key) :
    (h0.remove_adj nk ks).num_nodes = h0.num_nodes ∧
    (∀ k', k' ≠ nk → (h0.remove_adj nk ks).node? k' = h0.node? k') ∧
    (h0.remove_adj nk ks).node? nk = (h0.node? nk).map (adjFilter ks) := by
  refine ⟨rfl, ?_, ?_⟩
  · intro k' hne
    unfold DGraph.remove_adj
    rw [node?_updateNode h0 nk k' (adjFilter ks) (fun n => rfl)]
    cases hn : h0.node? k' with
    | none => rfl
    | some n =>
      have := node?_some_key hn
      simp [this, hne]
  · unfold DGraph.remove_adj
    rw [node?_updateNode h0 nk nk (adjFilter ks) (fun n => rfl)]
    cases hn : h0.node? nk with
    | none => rfl
    | some n =>
      have := node?_some_key hn
      simp [this]

/-- Claim C8: no operation ever removes a node.  For every successful
sequence of `add_node` / `insert_node` / `remove_adj` /
`intersect_graph_with_segment` calls, every key present before is present
after and `num_nodes` never decreases; and `remove_adj` touches only the
designated node, filtering out exactly the adjacency entries whose keys are
in the given set (absent keys are silently ignored), without changing the
node mapping. -/
theorem no_node_ever_removed (g : DGraph) (ops : List GOp) (g' : DGraph)
    (h : runOps g ops = some g') :
    (∀ k, g.containsKey k → g'.containsKey k) ∧
    g.num_nodes ≤ g'.num_nodes ∧
    (∀ (h0 : DGraph) (nk : Key) (ks : List Key),
      (h0.remove_adj nk ks).num_nodes = h0.num_nodes ∧
      (∀ k', k' ≠ nk → (h0.remove_adj nk ks).node? k' = h0.node? k') ∧
      (h0.remove_adj nk ks).node? nk = (h0.node? nk).map (adjFilter ks)) := by
  obtain ⟨m, n, _, _⟩ := runOps_props ops g g' h
  exact ⟨m, n, remove_adj_frame⟩

/-- A concrete three-operation run used to instantiate C8. -/
def opsW : List GOp :=
  [GOp.intersectOp (fun _ _ => none) ((5, 5), (6, 6)),
   GOp.addNodeOp (1, 1) [(0, 0)] none,
   GOp.removeAdjOp (0, 0) [(9, 9)]]

/-- The result of running `opsW` on `gW`. -/
def gWrun : DGraph := (runOps gW opsW).getD gW

/-- Witness for C8: the three-operation run on the concrete graph. -/
theorem no_node_ever_removed_witness :
    (∀ k, gW.containsKey k → gWrun.containsKey k) ∧
    gW.num_nodes ≤ gWrun.num_nodes ∧
    (∀ (h0 : DGraph) (nk : Key) (ks : List Key),
      (h0.remove_adj nk ks).num_nodes = h0.num_nodes ∧
      (∀ k', k' ≠ nk → (h0.remove_adj nk ks).node? k' = h0.node? k') ∧
      (h0.remove_adj nk ks).node? nk = (h0.node? nk).map (adjFilter ks)) :=
  no_node_ever_removed gW opsW gWrun (by with_unfolding_all decide)

/-- Claim C9: starting from an empty graph, any successful sequence of
operations leaves every node's adjacency list free of duplicates and free
of the node's own key (no self-loops), even if callers pass points hashing
to the node's own key or to keys already adjacent. -/
theorem no_self_loop_no_dup_adj (tol : ℚ) (ops : List GOp) (g' : DGraph)
    (h : runOps (DGraph.empty tol) ops = some g') :
    ∀ n ∈ g'.dg, n.adj_lst.Nodup ∧ n.key ∉ n.adj_lst := by
  obtain ⟨_, _, _, d⟩ := runOps_props ops (DGraph.empty tol) g' h
  have hbase : KeysNodup (DGraph.empty tol) ∧ AdjOk (DGraph.empty tol) := by
    constructor
    · show (([] : List GNode).map (·.key)).Nodup
      simp
    · intro n hn
      cases hn
  exact (d hbase).2

/-- Operations that pass a node its own point and duplicate adjacency
points, used to instantiate C9. -/
def opsQ : List GOp :=
  [GOp.addNodeOp (0, 0) [(0, 0), (2, 0), (2, 0)] none,
   GOp.addNodeOp (0, 0) [(2, 0)] none,
   GOp.insertNodeOp (0, 0) (1, 0) (2, 0) none]

/-- The result of running `opsQ` on the empty graph. -/
def gQrun : DGraph := (runOps (DGraph.empty (1 / 10)) opsQ).getD (DGraph.empty (1 / 10))

/-- Witness for C9 on the concrete run. -/
theorem no_self_loop_no_dup_adj_witness : AdjOk gQrun :=
  no_self_loop_no_dup_adj (1 / 10) opsQ gQrun (by with_unfolding_all decide)

/-! ## Claim C10: the empty-adjacency precondition of
`intersect_graph_with_segment` -/

/-- Claim C10 (amended): `intersect_graph_with_segment` reads
`node.adj_lst[0]` for each snapshot node in traversal order, so it fails
with an out-of-range access whenever it reaches a node whose adjacency list
is still empty; in particular it always fails when the *first* node in
traversal order has an empty adjacency list.  (It does not fail on every
graph containing an empty-adjacency node: an earlier splice can hand such a
node an adjacency first — see the counterexample.) -/
theorem intersect_fails_on_empty_first (g : DGraph) (oracle : Seg → Seg → Option Pt)
    (seg : Seg) (hnd : KeysNodup g) (hne : g.dg ≠ [])
    (hadj : g.rootNode.adj_lst = []) :
    g.intersect_graph_with_segment oracle seg = none := by
  have hlen : g.ordered_nodes ≠ [] := by
    unfold DGraph.ordered_nodes
    intro hcon
    have := congrArg List.length hcon
    rw [List.length_insertionSort] at this
    exact hne (List.length_eq_zero.mp this)
  obtain ⟨n0, rest, hn0⟩ := List.exists_cons_of_ne_nil hlen
  have hroot : g.rootNode = n0 := by
    unfold DGraph.rootNode
    rw [hn0]
    rfl
  have hn0mem : n0 ∈ g.dg := by
    have : n0 ∈ g.ordered_nodes := by rw [hn0]; exact List.mem_cons_self _ _
    unfold DGraph.ordered_nodes at this
    exact (List.mem_insertionSort _).mp this
  have hget : g.getN n0.key = n0 := getN_of_node? (node?_eq_of_mem hnd hn0mem)
  have hkeys : g.ordered_nodes.map (·.key) = n0.key :: rest.map (·.key) := by
    rw [hn0]
    rfl
  unfold DGraph.intersect_graph_with_segment splicePhase
  rw [hkeys, List.foldl_cons,
    spliceStep_empty oracle seg [] (by rw [hget, ← hroot, hadj]; rfl),
    foldl_spliceStep_none]
  rfl

/-- A graph whose third node `(1,0)` has an empty adjacency list but sits
(within tolerance) on the edge `(0,0) → (2,0)` of the first node. -/
def gT : DGraph :=
  ((((DGraph.empty (1 / 10)).add_node (0, 0) [(2, 0)] none).1.add_node
    (2, 0) [(0, 0)] none).1.add_node (1, 0) [] none).1

/-- The geometric intersection of the supporting line of `(0,0) → (2,0)`
with the vertical segment `x = 1` is `(1,0)`; all other edges miss.  This
oracle returns exactly those values. -/
def oracleT : Seg → Seg → Option Pt :=
  fun t _ => if t = ((0, 0), (2, 0)) then some (1, 0) else none

/-- Claim C10 (counterexample): a graph containing a node with an empty
adjacency list on which `intersect_graph_with_segment` nevertheless
succeeds — the splice at the first edge hashes onto the empty-adjacency
node and hands it an adjacency before the loop reads it. -/
theorem intersect_succeeds_despite_empty_adj :
    (∃ n ∈ gT.dg, n.adj_lst = []) ∧
    (gT.intersect_graph_with_segment oracleT ((1, -1), (1, 1))).isSome = true := by
  with_unfolding_all decide

/-- A one-node graph whose single node has an empty adjacency list. -/
def gE : DGraph := ((DGraph.empty (1 / 10)).add_node (0, 0) [] none).1

/-- Witness for the amended C10 theorem. -/
theorem intersect_fails_on_empty_first_witness :
    gE.intersect_graph_with_segment (fun _ _ => none) ((0, 0), (1, 1)) = none :=
  intersect_fails_on_empty_first gE (fun _ _ => none) ((0, 0), (1, 1))
    (by with_unfolding_all decide) (by with_unfolding_all decide)
    (by with_unfolding_all decide)

/-! ## Claim C7: the hard step bound of `min_ccw_cycle` -/

theorem minCcwCycle_limit {g : DGraph} {angle : Pt → Pt → ℚ} {limit count : ℕ}
    (refN : GNode) (nextN : Option GNode) (cyc : List GNode) (h : limit ≤ count) :
    minCcwCycle g angle limit refN nextN cyc count = .error .recursionError := by
  unfold minCcwCycle
  simp [h]

theorem minCcwCycle_none {g : DGraph} {angle : Pt → Pt → ℚ} {limit count : ℕ}
    (refN : GNode) (cyc : List GNode) (h : ¬ limit ≤ count) :
    minCcwCycle g angle limit refN none cyc count = .error .attrErr := by
  unfold minCcwCycle
  simp [h]

theorem minCcwCycle_close {g : DGraph} {angle : Pt → Pt → ℚ} {limit count : ℕ}
    {nx : GNode} {cyc : List GNode} (refN : GNode) (h : ¬ limit ≤ count)
    (hb : cyc ≠ [] ∧ nx.key = cyc.headI.key) :
    minCcwCycle g angle limit refN (some nx) cyc count = .ok cyc := by
  unfold minCcwCycle
  simp [h, hb.1, hb.2]

theorem minCcwCycle_step {g : DGraph} {angle : Pt → Pt → ℚ} {limit count : ℕ}
    {nx : GNode} {cyc : List GNode} (refN : GNode) (h : ¬ limit ≤ count)
    (hb : ¬(cyc ≠ [] ∧ nx.key = cyc.headI.key)) :
    minCcwCycle g angle limit refN (some nx) cyc count =
      minCcwCycle g angle limit nx
        (chooseMin g angle (subV nx.pt refN.pt) nx
          ((((if cyc.isEmpty then [refN] else cyc) ++ [nx]).getD
            (((if cyc.isEmpty then [refN] else cyc) ++ [nx]).length - 2) default).key))
        ((if cyc.isEmpty then [refN] else cyc) ++ [nx]) (count + 1) := by
  conv_lhs => rw [minCcwCycle]
  rw [dif_neg h]
  show (if cyc ≠ [] ∧ nx.key = cyc.headI.key then Except.ok cyc
      else
        minCcwCycle g angle limit nx
          (chooseMin g angle (subV nx.pt refN.pt) nx
            ((((if cyc.isEmpty then [refN] else cyc) ++ [nx]).getD
              (((if cyc.isEmpty then [refN] else cyc) ++ [nx]).length - 2) default).key))
          ((if cyc.isEmpty then [refN] else cyc) ++ [nx]) (count + 1)) = _
  rw [if_neg hb]

/-- The returned cycle closed: it ends `[..., b, a]`, and the
most-counter-clockwise candidate chosen from `a`'s adjacency (for some
incoming reference direction, excluding the backtrack to `b`) has the key
of the cycle's first node. -/
def ClosesChosen (g : DGraph) (angle : Pt → Pt → ℚ) (c : List GNode) : Prop :=
  ∃ (pre : List GNode) (b a r m : GNode), c = pre ++ [b, a] ∧
    chooseMin g angle (subV a.pt r.pt) a b.key = some m ∧
    m.key = c.headI.key

theorem getD_concat_two (pre : List GNode) (b a : GNode) :
    (pre ++ [b, a]).getD ((pre ++ [b, a]).length - 2) default = b := by
  have hlen : (pre ++ [b, a]).length - 2 = pre.length := by
    simp [List.length_append]
  rw [hlen]
  unfold List.getD
  rw [List.get?_append_right (le_refl pre.length)]
  simp

/-- Claim C7: for every positive step bound, once the walk's step count
reaches the bound the function raises (`RecursionError`) rather than
returning; and whenever it does return a cycle normally, the cycle was
completed by the closing base case (the newly chosen node returns to the
cycle's start) — never a partial sequence cut off by the bound. -/
theorem min_ccw_cycle_hard_bound (g : DGraph) (angle : Pt → Pt → ℚ) (limit : ℕ)
    (hpos : 0 < limit) :
    (∀ (refN : GNode) (nextN : Option GNode) (cyc : List GNode) (count : ℕ),
      limit ≤ count →
      minCcwCycle g angle limit refN nextN cyc count = .error .recursionError) ∧
    (∀ (count : ℕ) (refN : GNode) (nextN : Option GNode) (cyc c : List GNode),
      minCcwCycle g angle limit refN nextN cyc count = .ok c →
      (cyc ≠ [] ∧ c = cyc ∧ ∃ nx, nextN = some nx ∧ nx.key = cyc.headI.key) ∨
      ClosesChosen g angle c) := by
  constructor
  · intro refN nextN cyc count h
    exact minCcwCycle_limit refN nextN cyc h
  · have main : ∀ (fuel count : ℕ), limit - count ≤ fuel →
        ∀ (refN : GNode) (nextN : Option GNode) (cyc c : List GNode),
        minCcwCycle g angle limit refN nextN cyc count = .ok c →
        (cyc ≠ [] ∧ c = cyc ∧ ∃ nx, nextN = some nx ∧ nx.key = cyc.headI.key) ∨
        ClosesChosen g angle c := by
      intro fuel
      induction fuel with
      | zero =>
        intro count hc refN nextN cyc c h
        have hlim : limit ≤ count := by omega
        rw [minCcwCycle_limit refN nextN cyc hlim] at h
        cases h
      | succ f ih =>
        intro count hc refN nextN cyc c h
        by_cases hlim : limit ≤ count
        · rw [minCcwCycle_limit refN nextN cyc hlim] at h
          cases h
        · cases nextN with
          | none =>
            rw [minCcwCycle_none refN cyc hlim] at h
            cases h
          | some nx =>
            by_cases hbase : cyc ≠ [] ∧ nx.key = cyc.headI.key
            · rw [minCcwCycle_close refN hlim hbase] at h
              cases h
              exact Or.inl ⟨hbase.1, rfl, nx, rfl, hbase.2⟩
            · rw [minCcwCycle_step refN hlim hbase] at h
              have hih := ih (count + 1) (by omega) nx _ _ c h
              rcases hih with ⟨_, rfl, nx2, hnx2, hkey⟩ | hcl
              · right
                rcases List.eq_nil_or_concat (if cyc.isEmpty then [refN] else cyc) with
                  hnil | ⟨pre, b, hpre⟩
                · exfalso
                  by_cases hce : cyc.isEmpty
                  · rw [if_pos hce] at hnil; cases hnil
                  · rw [if_neg hce] at hnil
                    exact hce (by rw [hnil]; rfl)
                · rw [List.concat_eq_append] at hpre
                  refine ⟨pre, b, nx, refN, nx2, ?_, ?_, ?_⟩
                  · rw [hpre, List.append_assoc]
                    rfl
                  · rw [hpre] at hnx2
                    rw [List.append_assoc] at hnx2
                    simp only [List.cons_append, List.nil_append] at hnx2
                    rw [getD_concat_two pre b nx] at hnx2
                    exact hnx2
                  · exact hkey
              · right
                exact hcl
    intro count refN nextN cyc c h
    exact main limit count (by omega) refN nextN cyc c h

/-- Witness for C7: with bound 1 and the step count already at the bound,
the walk raises `RecursionError`. -/
theorem min_ccw_cycle_hard_bound_witness :
    minCcwCycle gW (fun _ _ => 0) 1 default none [] 1 = .error .recursionError :=
  (min_ccw_cycle_hard_bound gW (fun _ _ => 0) 1 (by decide)).1 default none [] 1 (by decide)

/-! ## Claim C6: `from_point_array` on a closed loop -/

theorem find?_front_none {front : List GNode} {k : Key}
    (h : ∀ n ∈ front, n.key ≠ k) :
    front.find? (fun n => decide (n.key = k)) = none :=
  List.find?_eq_none.mpr (fun x hx => by simp [h x hx])

theorem node?_front_last {front : List GNode} {lastN : GNode} {m : ℕ} {tol : ℚ} {k : Key}
    (hfr : ∀ n ∈ front, n.key ≠ k) (hlk : lastN.key = k) :
    (⟨front ++ [lastN], m, tol⟩ : DGraph).node? k = some lastN := by
  unfold DGraph.node?
  show ((front ++ [lastN]).find? (fun n => decide (n.key = k))) = some lastN
  rw [List.find?_append, find?_front_none hfr]
  simp [List.find?_cons, hlk]

theorem node?_front_last_none {front : List GNode} {lastN : GNode} {m : ℕ} {tol : ℚ}
    {k : Key} (hfr : ∀ n ∈ front, n.key ≠ k) (hlk : lastN.key ≠ k) :
    (⟨front ++ [lastN], m, tol⟩ : DGraph).node? k = none := by
  unfold DGraph.node?
  show ((front ++ [lastN]).find? (fun n => decide (n.key = k))) = none
  rw [List.find?_append, find?_front_none hfr]
  simp [List.find?_cons, hlk]

/-- Symbolic execution of `add_node v [w] (exterior=True)` on a graph whose
dict is `front ++ [lastN]`, where `lastN` is the node for `v` (with empty
adjacency) and `w` is fresh. -/
theorem add_node_shape_mid (front : List GNode) (lastN : GNode) (v w : Pt)
    (tol : ℚ) (m : ℕ)
    (hlk : lastN.key = vector2hash v tol)
    (hla : lastN.adj_lst = [])
    (hfr1 : ∀ n ∈ front, n.key ≠ vector2hash v tol)
    (hfr2 : ∀ n ∈ front, n.key ≠ vector2hash w tol)
    (hwv : vector2hash w tol ≠ vector2hash v tol) :
    ((⟨front ++ [lastN], m, tol⟩ : DGraph).add_node v [w] (some true)).1 =
      ⟨front ++ [{ lastN with adj_lst := [vector2hash w tol], exterior := some true },
        ⟨vector2hash w tol, w, m, [], none⟩], m + 1, tol⟩ := by
  set g : DGraph := ⟨front ++ [lastN], m, tol⟩ with hg
  set k : Key := vector2hash v tol with hk
  set ak : Key := vector2hash w tol with hak
  have hn1 : g.node? k = some lastN := node?_front_last hfr1 hlk
  have hck : g.checkMake k v (some true) = g := checkMake_present (by simp [hn1])
  have hgetn : g.getN k = lastN := getN_of_node? hn1
  have hn2 : g.node? ak = none := node?_front_last_none hfr2 (by rw [hlk]; exact Ne.symm hwv)
  have hmap1 : ((front ++ [lastN]) ++ [(⟨ak, w, m, [], none⟩ : GNode)]).map
      (fun n => if n.key = k then adjAppend ak n else n) =
      front ++ [{ lastN with adj_lst := [ak] }, ⟨ak, w, m, [], none⟩] := by
    rw [List.map_append, List.map_append]
    rw [map_keyfix_id front k _ (fun n hn hk2 => absurd hk2 (hfr1 n hn))]
    have h1 : ([lastN].map (fun n => if n.key = k then adjAppend ak n else n))
        = [{ lastN with adj_lst := [ak] }] := by
      simp only [List.map_cons, List.map_nil]
      rw [if_pos hlk]
      show [adjAppend ak lastN] = _
      unfold adjAppend
      rw [hla]
      rfl
    have h2 : ([(⟨ak, w, m, [], none⟩ : GNode)].map
        (fun n => if n.key = k then adjAppend ak n else n))
        = [⟨ak, w, m, [], none⟩] := by
      simp only [List.map_cons, List.map_nil]
      rw [if_neg (show ¬((⟨ak, w, m, [], none⟩ : GNode).key = k) from hwv)]
    rw [h1, h2, List.append_assoc]
    rfl
  have hadj : g.add_adj k [w] =
      ⟨front ++ [{ lastN with adj_lst := [ak] }, ⟨ak, w, m, [], none⟩], m + 1, tol⟩ := by
    unfold DGraph.add_adj
    rw [hgetn, hla]
    show g.addAdjAux k [k] [w] = _
    unfold DGraph.addAdjAux
    have hmem : ¬ (vector2hash w g.tol ∈ [k]) := by
      show ¬ (ak ∈ [k])
      simp [hwv]
    rw [if_neg hmem]
    show ((g.checkMake ak w none).updateNode k (adjAppend ak)).addAdjAux k (ak :: [k]) [] = _
    have hcm : g.checkMake ak w none =
        ⟨(front ++ [lastN]) ++ [⟨ak, w, m, [], none⟩], m + 1, tol⟩ := by
      unfold DGraph.checkMake
      rw [hn2]
      rfl
    rw [hcm]
    show DGraph.updateNode ⟨(front ++ [lastN]) ++ [⟨ak, w, m, [], none⟩], m + 1, tol⟩
        k (adjAppend ak) = _
    show (⟨((front ++ [lastN]) ++ [(⟨ak, w, m, [], none⟩ : GNode)]).map
        (fun n => if n.key = k then adjAppend ak n else n), m + 1, tol⟩ : DGraph) = _
    rw [hmap1]
  have hmap2 : ((front ++ [{ lastN with adj_lst := [ak] },
      (⟨ak, w, m, [], none⟩ : GNode)]).map
      (fun n => if n.key = k then extSet (some true) n else n)) =
      front ++ [{ lastN with adj_lst := [ak], exterior := some true },
        ⟨ak, w, m, [], none⟩] := by
    rw [List.map_append]
    rw [map_keyfix_id front k _ (fun n hn hk2 => absurd hk2 (hfr1 n hn))]
    simp only [List.map_cons, List.map_nil]
    rw [if_pos (show ({ lastN with adj_lst := [ak] } : GNode).key = k from hlk),
      if_neg (show ¬((⟨ak, w, m, [], none⟩ : GNode).key = k) from hwv)]
    rfl
  rw [add_node_fst]
  show ((g.checkMake k v (some true)).add_adj k [w]).updateNode k (extSet (some true)) = _
  rw [hck, hadj]
  show (⟨(front ++ [{ lastN with adj_lst := [ak] },
      (⟨ak, w, m, [], none⟩ : GNode)]).map
      (fun n => if n.key = k then extSet (some true) n else n), m + 1, tol⟩ : DGraph) = _
  rw [hmap2]

/-- The first loop iteration of `from_point_array` on the empty graph. -/
theorem add_node_shape_empty (v w : Pt) (tol : ℚ)
    (hwv : vector2hash w tol ≠ vector2hash v tol) :
    ((DGraph.empty tol).add_node v [w] (some true)).1 =
      ⟨[⟨vector2hash v tol, v, 0, [vector2hash w tol], some true⟩,
        ⟨vector2hash w tol, w, 1, [], none⟩], 2, tol⟩ := by
  have hmid := add_node_shape_mid [] ⟨vector2hash v tol, v, 0, [], some true⟩ v w tol 1
    rfl rfl (by simp) (by simp) hwv
  have hmid2 : (((⟨[] ++ [(⟨vector2hash v tol, v, 0, [], some true⟩ : GNode)], 1, tol⟩ :
        DGraph).checkMake (vector2hash v tol) v (some true)).add_adj
        (vector2hash v tol) [w]).updateNode (vector2hash v tol) (extSet (some true)) =
      ⟨[⟨vector2hash v tol, v, 0, [vector2hash w tol], some true⟩,
        ⟨vector2hash w tol, w, 1, [], none⟩], 2, tol⟩ := hmid
  have hn1 : (⟨[] ++ [(⟨vector2hash v tol, v, 0, [], some true⟩ : GNode)], 1, tol⟩ :
      DGraph).node? (vector2hash v tol) =
      some ⟨vector2hash v tol, v, 0, [], some true⟩ :=
    node?_front_last (by simp) rfl
  have hckg : (⟨[] ++ [(⟨vector2hash v tol, v, 0, [], some true⟩ : GNode)], 1, tol⟩ :
      DGraph).checkMake (vector2hash v tol) v (some true) =
      ⟨[] ++ [⟨vector2hash v tol, v, 0, [], some true⟩], 1, tol⟩ :=
    checkMake_present (by rw [hn1]; rfl)
  rw [hckg] at hmid2
  rw [add_node_fst]
  show (((DGraph.empty tol).checkMake (vector2hash v tol) v (some true)).add_adj
      (vector2hash v tol) [w]).updateNode (vector2hash v tol) (extSet (some true)) = _
  have hck0 : (DGraph.empty tol).checkMake (vector2hash v tol) v (some true) =
      ⟨[] ++ [⟨vector2hash v tol, v, 0, [], some true⟩], 1, tol⟩ := rfl
  rw [hck0]
  exact hmid2

/-- The loop-closing `add_node` of `from_point_array`: the adjacency point
`w` is already a node (in `front`). -/
theorem add_node_shape_close (front : List GNode) (lastN first : GNode)
    (v w : Pt) (tol : ℚ) (m : ℕ)
    (hlk : lastN.key = vector2hash v tol)
    (hla : lastN.adj_lst = [])
    (hfr1 : ∀ n ∈ front, n.key ≠ vector2hash v tol)
    (hfirst : first ∈ front) (hfk : first.key = vector2hash w tol)
    (hwv : vector2hash w tol ≠ vector2hash v tol) :
    ((⟨front ++ [lastN], m, tol⟩ : DGraph).add_node v [w] (some true)).1 =
      ⟨front ++ [{ lastN with adj_lst := [vector2hash w tol], exterior := some true }],
        m, tol⟩ := by
  set g : DGraph := ⟨front ++ [lastN], m, tol⟩ with hg
  set k : Key := vector2hash v tol with hk
  set ak : Key := vector2hash w tol with hak
  have hn1 : g.node? k = some lastN := node?_front_last hfr1 hlk
  have hck : g.checkMake k v (some true) = g := checkMake_present (by simp [hn1])
  have hgetn : g.getN k = lastN := getN_of_node? hn1
  have hn2 : (g.node? ak).isSome = true := by
    unfold DGraph.node?
    show ((front ++ [lastN]).find? (fun n => decide (n.key = ak))).isSome = true
    rw [List.find?_isSome]
    exact ⟨first, List.mem_append_left _ hfirst, by simp [hfk]⟩
  have hmap1 : ((front ++ [lastN]).map
      (fun n => if n.key = k then adjAppend ak n else n)) =
      front ++ [{ lastN with adj_lst := [ak] }] := by
    rw [List.map_append]
    rw [map_keyfix_id front k _ (fun n hn hk2 => absurd hk2 (hfr1 n hn))]
    simp only [List.map_cons, List.map_nil]
    rw [if_pos hlk]
    show front ++ [adjAppend ak lastN] = _
    unfold adjAppend
    rw [hla]
    rfl
  have hadj : g.add_adj k [w] =
      ⟨front ++ [{ lastN with adj_lst := [ak] }], m, tol⟩ := by
    unfold DGraph.add_adj
    rw [hgetn, hla]
    show g.addAdjAux k [k] [w] = _
    unfold DGraph.addAdjAux
    have hmem : ¬ (vector2hash w g.tol ∈ [k]) := by
      show ¬ (ak ∈ [k])
      simp [hwv]
    rw [if_neg hmem]
    show ((g.checkMake ak w none).updateNode k (adjAppend ak)).addAdjAux k (ak :: [k]) [] = _
    rw [checkMake_present hn2]
    show DGraph.updateNode g k (adjAppend ak) = _
    show (⟨(front ++ [lastN]).map
        (fun n => if n.key = k then adjAppend ak n else n), m, tol⟩ : DGraph) = _
    rw [hmap1]
  have hmap2 : ((front ++ [({ lastN with adj_lst := [ak] } : GNode)]).map
      (fun n => if n.key = k then extSet (some true) n else n)) =
      front ++ [{ lastN with adj_lst := [ak], exterior := some true }] := by
    rw [List.map_append]
    rw [map_keyfix_id front k _ (fun n hn hk2 => absurd hk2 (hfr1 n hn))]
    simp only [List.map_cons, List.map_nil]
    rw [if_pos (show ({ lastN with adj_lst := [ak] } : GNode).key = k from hlk)]
    rfl
  rw [add_node_fst]
  show ((g.checkMake k v (some true)).add_adj k [w]).updateNode k (extSet (some true)) = _
  rw [hck, hadj]
  show (⟨(front ++ [({ lastN with adj_lst := [ak] } : GNode)]).map
      (fun n => if n.key = k then extSet (some true) n else n), m, tol⟩ : DGraph) = _
  rw [hmap2]

/-! ## `from_point_array` on a closed loop -/

theorem map_range_getD {α β : Type _} (l : List α) (d : α) (f : α → β) :
    (List.range l.length).map (fun i => f (l.getD i d)) = l.map f := by
  apply List.ext_getElem
  · simp
  · intro i h1 h2
    simp only [List.getElem_map, List.getElem_range]
    rw [List.getD_eq_getElem l d (by simpa using h2)]

theorem getD_map_range {α : Type _} (n k : ℕ) (g : ℕ → α) (d : α) (hk : k < n) :
    ((List.range n).map g).getD k d = g k := by
  rw [List.getD_eq_getElem _ d (by simpa using hk)]
  simp

theorem replicate_set_one (n j : ℕ) (hj : j < n) :
    (List.replicate n (0 : ℕ)).set j 1 =
      (List.range n).map (fun t => if t = j then 1 else 0) := by
  apply List.ext_getElem
  · simp
  · intro i h1 h2
    simp only [List.getElem_set, List.getElem_replicate, List.getElem_map, List.getElem_range]
    rcases eq_or_ne j i with h | h
    · simp [h]
    · rw [if_neg h, if_neg (Ne.symm h)]

theorem set_map_range {α : Type _} (n k : ℕ) (x : α) (g : ℕ → α) :
    ((List.range n).map g).set k x =
      (List.range n).map (fun i => if i = k then x else g i) := by
  apply List.ext_getElem
  · simp
  · intro i h1 h2
    simp only [List.getElem_set, List.getElem_map, List.getElem_range]
    rcases eq_or_ne k i with h | h
    · simp [h]
    · rw [if_neg h, if_neg (Ne.symm h)]

theorem foldl_funext {α β : Type _} (l : List β) (f f2 : α → β → α)
    (h : ∀ a : α, ∀ b ∈ l, f a b = f2 a b) : ∀ a, l.foldl f a = l.foldl f2 a := by
  induction l with
  | nil => intro a; rfl
  | cons x xs ih =>
    intro a
    simp only [List.foldl_cons]
    rw [h a x (List.mem_cons_self x xs)]
    exact ih (fun a b hb => h a b (List.mem_cons_of_mem x hb)) _

/-- The row-writing double loop of `adj_matrix`, specialised to one
adjacency target `f i` per row. -/
theorem foldl_rowset (N : ℕ) (f : ℕ → ℕ) (hf : ∀ i, i < N → f i < N) :
    ∀ k, k ≤ N →
    (List.range k).foldl (fun m i => m.set i ((m.getD i []).set (f i) 1))
      (List.replicate N (List.replicate N (0 : ℕ))) =
    (List.range N).map (fun i => if i < k then
        (List.range N).map (fun j => if j = f i then 1 else 0)
      else List.replicate N 0) := by
  intro k
  induction k with
  | zero =>
    intro _
    simp only [List.range_zero, List.foldl_nil]
    apply List.ext_getElem
    · simp
    · intro i h1 h2
      simp [Nat.not_lt_zero]
  | succ k ih =>
    intro hk
    rw [List.range_succ, List.foldl_append, ih (by omega)]
    simp only [List.foldl_cons, List.foldl_nil]
    rw [getD_map_range N k (fun i => if i < k then
        (List.range N).map (fun j => if j = f i then 1 else 0)
      else List.replicate N 0) [] (by omega)]
    rw [if_neg (lt_irrefl k)]
    rw [replicate_set_one N (f k) (hf k (by omega))]
    rw [set_map_range N k ((List.range N).map (fun j => if j = f k then 1 else 0))
      (fun i => if i < k then (List.range N).map (fun j => if j = f i then 1 else 0)
        else List.replicate N 0)]
    apply List.map_congr_left
    intro i _
    rcases eq_or_ne i k with h | h
    · rw [if_pos h, if_pos (by omega : i < k + 1), h]
    · rw [if_neg h]
      rcases lt_or_ge i k with h2 | h2
      · rw [if_pos h2, if_pos (by omega)]
      · rw [if_neg (by omega), if_neg (by omega)]

/-- Distinct indices give distinct hashes when the point hashes are nodup. -/
theorem hsh_inj {pts : List Pt} {tol : ℚ}
    (hnd : (pts.map (fun p => vector2hash p tol)).Nodup)
    (i j : ℕ) (hi : i < pts.length) (hj : j < pts.length) (hij : i ≠ j) :
    vector2hash (pts.getD i default) tol ≠ vector2hash (pts.getD j default) tol := by
  intro he
  apply hij
  rw [List.getD_eq_getElem pts default hi, List.getD_eq_getElem pts default hj] at he
  have hi' : i < (pts.map (fun p => vector2hash p tol)).length := by simpa using hi
  have hj' : j < (pts.map (fun p => vector2hash p tol)).length := by simpa using hj
  have hget : (pts.map (fun p => vector2hash p tol)).get ⟨i, hi'⟩ =
      (pts.map (fun p => vector2hash p tol)).get ⟨j, hj'⟩ := by
    simpa using he
  have hij2 := (List.Nodup.get_inj_iff hnd).mp hget
  simpa using hij2

/-- A dict whose node at position `j` has order `j` is already sorted, so
`ordered_nodes` returns it unchanged. -/
theorem ordered_nodes_map_range (N m : ℕ) (f : ℕ → GNode) (tol : ℚ)
    (hord : ∀ j, (f j).order = j) :
    (⟨(List.range N).map f, m, tol⟩ : DGraph).ordered_nodes = (List.range N).map f := by
  unfold DGraph.ordered_nodes
  apply List.Sorted.insertionSort_eq
  apply List.Pairwise.map
  · intro a b hab
    show (f a).order ≤ (f b).order
    rw [hord, hord]
    exact le_of_lt hab
  · exact List.pairwise_lt_range N

/-- `adj_matrix` of a graph whose dict is a single directed cycle in input
order: row `i` holds a `1` exactly at column `(i+1) % N`. -/
theorem adj_matrix_cycle (N : ℕ) (hN : 0 < N) (key : ℕ → Key) (pt : ℕ → Pt) (tol : ℚ)
    (hinj : ∀ i j, i < N → j < N → i ≠ j → key i ≠ key j) :
    (⟨(List.range N).map (fun j =>
        ⟨key j, pt j, j, [key ((j + 1) % N)], some true⟩), N, tol⟩ : DGraph).adj_matrix =
    (List.range N).map (fun i => (List.range N).map
      (fun j => if j = (i + 1) % N then 1 else 0)) := by
  set g : DGraph := ⟨(List.range N).map (fun j =>
      ⟨key j, pt j, j, [key ((j + 1) % N)], some true⟩), N, tol⟩ with hg
  have hnd : KeysNodup g := by
    show (g.dg.map (·.key)).Nodup
    rw [hg]
    show (((List.range N).map (fun j =>
        (⟨key j, pt j, j, [key ((j + 1) % N)], some true⟩ : GNode))).map (·.key)).Nodup
    rw [List.map_map]
    show ((List.range N).map (fun j => key j)).Nodup
    apply List.Nodup.map_on
    · intro x hx y hy hxy
      by_contra hne
      exact hinj x y (List.mem_range.mp hx) (List.mem_range.mp hy) hne hxy
    · exact List.nodup_range N
  have hord : g.ordered_nodes = (List.range N).map (fun j =>
      ⟨key j, pt j, j, [key ((j + 1) % N)], some true⟩) :=
    ordered_nodes_map_range N N _ tol (fun j => rfl)
  have hstep : ∀ (m : List (List ℕ)), ∀ i ∈ List.range N,
      ((g.ordered_nodes.getD i default).adj_lst.map (fun a => (g.getN a).order)).foldl
        (fun m2 j => m2.set i ((m2.getD i []).set j 1)) m =
      m.set i ((m.getD i []).set ((i + 1) % N) 1) := by
    intro m i hi
    rw [List.mem_range] at hi
    rw [hord]
    rw [getD_map_range N i (fun j =>
        (⟨key j, pt j, j, [key ((j + 1) % N)], some true⟩ : GNode)) default hi]
    have hm0 : (i + 1) % N < N := Nat.mod_lt _ hN
    have hmem : (⟨key ((i + 1) % N), pt ((i + 1) % N), (i + 1) % N,
        [key (((i + 1) % N + 1) % N)], some true⟩ : GNode) ∈ g.dg := by
      rw [hg]
      show _ ∈ (List.range N).map (fun j =>
        (⟨key j, pt j, j, [key ((j + 1) % N)], some true⟩ : GNode))
      exact List.mem_map.mpr ⟨(i + 1) % N, List.mem_range.mpr hm0, rfl⟩
    have hnode : g.node? (key ((i + 1) % N)) = some ⟨key ((i + 1) % N), pt ((i + 1) % N),
        (i + 1) % N, [key (((i + 1) % N + 1) % N)], some true⟩ :=
      node?_eq_of_mem hnd hmem
    show ([key ((i + 1) % N)].map (fun a => (g.getN a).order)).foldl
        (fun m2 j => m2.set i ((m2.getD i []).set j 1)) m = _
    simp only [List.map_cons, List.map_nil, List.foldl_cons, List.foldl_nil]
    rw [getN_of_node? hnode]
  show (List.range N).foldl
      (fun m i => ((g.ordered_nodes.getD i default).adj_lst.map
        (fun a => (g.getN a).order)).foldl
        (fun m2 j => m2.set i ((m2.getD i []).set j 1)) m)
      (List.replicate N (List.replicate N 0)) =
    (List.range N).map (fun i => (List.range N).map
      (fun j => if j = (i + 1) % N then 1 else 0))
  rw [foldl_funext (List.range N) _ _ hstep (List.replicate N (List.replicate N 0))]
  rw [foldl_rowset N (fun i => (i + 1) % N) (fun i _ => Nat.mod_lt _ hN) N le_rfl]
  apply List.map_congr_left
  intro i hi
  rw [if_pos (List.mem_range.mp hi)]

/-- Invariant of the `for i in range(len(point_array) - 1)` loop of
`from_point_array`: after `i` iterations the dict holds the first `i`
points chained to their successors plus the freshly created node for
point `i`, still with empty adjacency. -/
theorem fromPointArray_fold (pts : List Pt)
    (hnd : (pts.map (fun p => vector2hash p (1 / 100000))).Nodup) :
    ∀ i, 1 ≤ i → i ≤ pts.length - 1 →
    (List.range i).foldl
      (fun g j => (g.add_node (pts.getD j default) [pts.getD (j + 1) default] (some true)).1)
      (DGraph.empty (1 / 100000)) =
    ⟨(List.range i).map (fun j =>
        ⟨vector2hash (pts.getD j default) (1 / 100000), pts.getD j default, j,
          [vector2hash (pts.getD (j + 1) default) (1 / 100000)], some true⟩) ++
      [⟨vector2hash (pts.getD i default) (1 / 100000), pts.getD i default, i, [], none⟩],
      i + 1, 1 / 100000⟩ := by
  intro i
  induction i with
  | zero => intro h1 _; exact absurd h1 (by omega)
  | succ i ih =>
    intro _ h2
    have hlen : i + 2 ≤ pts.length := by omega
    rcases Nat.eq_zero_or_pos i with hi0 | hi1
    · subst hi0
      rw [show List.range 1 = [0] from rfl]
      simp only [List.foldl_cons, List.foldl_nil, List.map_cons, List.map_nil]
      rw [add_node_shape_empty (pts.getD 0 default) (pts.getD (0 + 1) default) (1 / 100000)
        (hsh_inj hnd (0 + 1) 0 (by omega) (by omega) (by omega))]
      rfl
    · have h2' : i ≤ pts.length - 1 := by omega
      rw [List.range_succ, List.foldl_append, ih hi1 h2']
      simp only [List.foldl_cons, List.foldl_nil]
      rw [add_node_shape_mid
        ((List.range i).map (fun j =>
          (⟨vector2hash (pts.getD j default) (1 / 100000), pts.getD j default, j,
            [vector2hash (pts.getD (j + 1) default) (1 / 100000)], some true⟩ : GNode)))
        ⟨vector2hash (pts.getD i default) (1 / 100000), pts.getD i default, i, [], none⟩
        (pts.getD i default) (pts.getD (i + 1) default) (1 / 100000) (i + 1)
        rfl rfl
        (by
          intro n hn
          obtain ⟨j, hj, rfl⟩ := List.mem_map.mp hn
          have hj' := List.mem_range.mp hj
          exact hsh_inj hnd j i (by omega) (by omega) (by omega))
        (by
          intro n hn
          obtain ⟨j, hj, rfl⟩ := List.mem_map.mp hn
          have hj' := List.mem_range.mp hj
          exact hsh_inj hnd j (i + 1) (by omega) (by omega) (by omega))
        (hsh_inj hnd (i + 1) i (by omega) (by omega) (by omega))]
      rw [List.map_append, List.append_assoc]
      rfl

/-- `from_point_array(pts, loop=True)` on hash-distinct points: the dict is
a single directed cycle in input order. -/
theorem fromPointArray_loop (pts : List Pt) (hN : 2 ≤ pts.length)
    (hnd : (pts.map (fun p => vector2hash p (1 / 100000))).Nodup) :
    fromPointArray pts true =
      ⟨(List.range pts.length).map (fun j =>
          ⟨vector2hash (pts.getD j default) (1 / 100000), pts.getD j default, j,
            [vector2hash (pts.getD ((j + 1) % pts.length) default) (1 / 100000)], some true⟩),
        pts.length, 1 / 100000⟩ := by
  have hfold := fromPointArray_fold pts hnd (pts.length - 1) (by omega) le_rfl
  show (((List.range (pts.length - 1)).foldl
      (fun g i => (g.add_node (pts.getD i default) [pts.getD (i + 1) default] (some true)).1)
      (DGraph.empty (1 / 100000))).add_node (pts.getD (pts.length - 1) default)
      [pts.getD 0 default] (some true)).1 = _
  rw [hfold]
  rw [add_node_shape_close
    ((List.range (pts.length - 1)).map (fun j =>
      (⟨vector2hash (pts.getD j default) (1 / 100000), pts.getD j default, j,
        [vector2hash (pts.getD (j + 1) default) (1 / 100000)], some true⟩ : GNode)))
    ⟨vector2hash (pts.getD (pts.length - 1) default) (1 / 100000),
      pts.getD (pts.length - 1) default, pts.length - 1, [], none⟩
    ⟨vector2hash (pts.getD 0 default) (1 / 100000), pts.getD 0 default, 0,
      [vector2hash (pts.getD (0 + 1) default) (1 / 100000)], some true⟩
    (pts.getD (pts.length - 1) default) (pts.getD 0 default) (1 / 100000)
    (pts.length - 1 + 1)
    rfl rfl
    (by
      intro n hn
      obtain ⟨j, hj, rfl⟩ := List.mem_map.mp hn
      have hj' := List.mem_range.mp hj
      exact hsh_inj hnd j (pts.length - 1) (by omega) (by omega) (by omega))
    (List.mem_map.mpr ⟨0, List.mem_range.mpr (by omega), rfl⟩)
    rfl
    (hsh_inj hnd 0 (pts.length - 1) (by omega) (by omega) (by omega))]
  simp only [DGraph.mk.injEq]
  refine ⟨?_, by omega, trivial⟩
  apply List.ext_getElem
  · simp
    omega
  · intro idx h1 h2
    have hidx : idx < pts.length := by simpa using h2
    rcases lt_or_ge idx (pts.length - 1) with hlt | hge
    · rw [List.getElem_append_left (by simpa using hlt)]
      simp only [List.getElem_map, List.getElem_range]
      rw [Nat.mod_eq_of_lt (by omega)]
    · have hix : idx = pts.length - 1 := by omega
      subst hix
      rw [List.getElem_append_right (by simp)]
      simp only [List.length_map, List.length_range, Nat.sub_self,
        List.getElem_cons_zero, List.getElem_map, List.getElem_range]
      rw [Nat.sub_add_cancel (by omega), Nat.mod_self]

/-- Claim C6: for every ordered list of `N ≥ 2` points that are pairwise
distinct under the tolerance hash, `from_point_array` with `loop=True`
yields exactly `N` nodes, a root node of order `0`, and an adjacency
matrix that is the single directed `N`-cycle in input order: row `i` has
its only `1` at column `(i + 1) % N`, so the last row points back to the
first node. -/
theorem from_point_array_cycle (pts : List Pt) (hN : 2 ≤ pts.length)
    (hnd : (pts.map (fun p => vector2hash p (1 / 100000))).Nodup) :
    (fromPointArray pts true).num_nodes = pts.length ∧
    (fromPointArray pts true).rootNode.order = 0 ∧
    (fromPointArray pts true).adj_matrix =
      (List.range pts.length).map (fun i => (List.range pts.length).map
        (fun j => if j = (i + 1) % pts.length then 1 else 0)) := by
  have hfin := fromPointArray_loop pts hN hnd
  refine ⟨?_, ?_, ?_⟩
  · rw [hfin]
  · rw [hfin]
    unfold DGraph.rootNode
    rw [ordered_nodes_map_range pts.length pts.length _ (1 / 100000) (fun j => rfl)]
    rw [getD_map_range pts.length 0 _ default (by omega)]
  · rw [hfin]
    exact adj_matrix_cycle pts.length (by omega)
      (fun j => vector2hash (pts.getD j default) (1 / 100000))
      (fun j => pts.getD j default) (1 / 100000)
      (fun i j hi hj hij => hsh_inj hnd i j hi hj hij)

/-- Witness for C6 at the triangle (0,0), (1,0), (0,1). -/
theorem from_point_array_cycle_witness :
    2 ≤ ([((0 : ℚ), (0 : ℚ)), (1, 0), (0, 1)] : List Pt).length ∧
    (([((0 : ℚ), (0 : ℚ)), (1, 0), (0, 1)] : List Pt).map
      (fun p => vector2hash p (1 / 100000))).Nodup ∧
    ((fromPointArray [((0 : ℚ), (0 : ℚ)), (1, 0), (0, 1)] true).num_nodes =
        ([((0 : ℚ), (0 : ℚ)), (1, 0), (0, 1)] : List Pt).length ∧
      (fromPointArray [((0 : ℚ), (0 : ℚ)), (1, 0), (0, 1)] true).rootNode.order = 0 ∧
      (fromPointArray [((0 : ℚ), (0 : ℚ)), (1, 0), (0, 1)] true).adj_matrix =
        (List.range ([((0 : ℚ), (0 : ℚ)), (1, 0), (0, 1)] : List Pt).length).map
          (fun i => (List.range ([((0 : ℚ), (0 : ℚ)), (1, 0), (0, 1)] : List Pt).length).map
            (fun j => if j = (i + 1) % ([((0 : ℚ), (0 : ℚ)), (1, 0), (0, 1)] : List Pt).length
              then 1 else 0))) :=
  ⟨by with_unfolding_all decide, by with_unfolding_all decide,
    from_point_array_cycle [((0 : ℚ), (0 : ℚ)), (1, 0), (0, 1)]
      (by with_unfolding_all decide) (by with_unfolding_all decide)⟩

/-! ## Edge bookkeeping for the connection phase of
`intersect_graph_with_segment` -/

theorem hasEdge_updateNode_extSet_iff (g : DGraph) (k : Key) (e : Option Bool)
    (a b : Key) : (g.updateNode k (extSet e)).hasEdge a b ↔ g.hasEdge a b := by
  unfold DGraph.hasEdge
  rw [getN_updateNode_extSet_adj]

theorem hasEdge_checkMake_inv {g : DGraph} {k' : Key} {v : Pt} {e : Option Bool}
    {a b : Key} (h : (g.checkMake k' v e).hasEdge a b) : g.hasEdge a b := by
  unfold DGraph.checkMake at h
  by_cases hp : (g.node? k').isSome
  · rwa [if_pos hp] at h
  · rw [if_neg hp] at h
    unfold DGraph.hasEdge DGraph.getN at h ⊢
    cases hfa : g.node? a with
    | some n =>
      have hnq : ({ g with
          dg := g.dg ++ [⟨k', v, g.num_nodes, [], e⟩],
          num_nodes := g.num_nodes + 1 } : DGraph).node? a = some n := by
        show (g.dg ++ [(⟨k', v, g.num_nodes, [], e⟩ : GNode)]).find?
            (fun n => decide (n.key = a)) = some n
        rw [List.find?_append]
        have hfa' : g.dg.find? (fun n => decide (n.key = a)) = some n := hfa
        rw [hfa']
        rfl
      rw [hnq] at h
      exact h
    | none =>
      exfalso
      have hnq : ({ g with
          dg := g.dg ++ [⟨k', v, g.num_nodes, [], e⟩],
          num_nodes := g.num_nodes + 1 } : DGraph).node? a =
          [(⟨k', v, g.num_nodes, [], e⟩ : GNode)].find? (fun n => decide (n.key = a)) := by
        show (g.dg ++ [(⟨k', v, g.num_nodes, [], e⟩ : GNode)]).find?
            (fun n => decide (n.key = a)) = _
        rw [List.find?_append]
        have hfa' : g.dg.find? (fun n => decide (n.key = a)) = none := hfa
        rw [hfa']
        rfl
      rw [hnq] at h
      by_cases hk : (⟨k', v, g.num_nodes, [], e⟩ : GNode).key = a
      · rw [List.find?_cons_of_pos _ (by simpa using hk)] at h
        exact absurd (show b ∈ ([] : List Key) from h) (List.not_mem_nil b)
      · rw [List.find?_cons_of_neg _ (by simpa using hk)] at h
        exact absurd (show b ∈ ([] : List Key) from h) (List.not_mem_nil b)

theorem hasEdge_updateNode_adjAppend_inv {g : DGraph} {k ak : Key} {a b : Key}
    (h : (g.updateNode k (adjAppend ak)).hasEdge a b) :
    g.hasEdge a b ∨ (a = k ∧ b = ak) := by
  unfold DGraph.hasEdge at h ⊢
  unfold DGraph.getN at h ⊢
  rw [node?_updateNode g k a (adjAppend ak) (fun n => rfl)] at h
  cases hfa : g.node? a with
  | none =>
    rw [hfa] at h
    simp only [Option.map_none', Option.getD_none] at h
    have hd : (default : GNode).adj_lst = [] := rfl
    rw [hd] at h
    exact absurd h (List.not_mem_nil b)
  | some n =>
    rw [hfa] at h
    simp only [Option.map_some', Option.getD_some] at h
    by_cases hk : n.key = k
    · rw [if_pos hk] at h
      have h2 : b ∈ n.adj_lst ++ [ak] := h
      rcases List.mem_append.mp h2 with h3 | h3
      · exact Or.inl h3
      · right
        refine ⟨?_, by simpa using h3⟩
        rw [← node?_some_key hfa]
        exact hk
    · rw [if_neg hk] at h
      exact Or.inl h

theorem add_adj_single_cases (g : DGraph) (k : Key) (w : Pt) :
    g.add_adj k [w] = g ∨
    g.add_adj k [w] =
      (g.checkMake (vector2hash w g.tol) w none).updateNode k
        (adjAppend (vector2hash w g.tol)) := by
  unfold DGraph.add_adj
  unfold DGraph.addAdjAux
  by_cases hmem : vector2hash w g.tol ∈ k :: (g.getN k).adj_lst
  · left
    rw [if_pos hmem]
    rfl
  · right
    rw [if_neg hmem]
    rfl

/-- Any directed edge present after `add_node v [w] e` was either already
present or is the freshly written `hash v → hash w` adjacency. -/
theorem hasEdge_add_node_single_inv {g : DGraph} {v w : Pt} {e : Option Bool} {a b : Key}
    (h : (g.add_node v [w] e).1.hasEdge a b) :
    g.hasEdge a b ∨ (a = vector2hash v g.tol ∧ b = vector2hash w g.tol) := by
  rw [add_node_fst] at h
  have htolc : (g.checkMake (vector2hash v g.tol) v e).tol = g.tol :=
    tol_checkMake g (vector2hash v g.tol) v e
  have hcore : ((g.checkMake (vector2hash v g.tol) v e).add_adj
        (vector2hash v g.tol) [w]).hasEdge a b →
      g.hasEdge a b ∨ (a = vector2hash v g.tol ∧ b = vector2hash w g.tol) := by
    intro h2
    rcases add_adj_single_cases (g.checkMake (vector2hash v g.tol) v e)
        (vector2hash v g.tol) w with hcase | hcase
    · rw [hcase] at h2
      exact Or.inl (hasEdge_checkMake_inv h2)
    · rw [hcase] at h2
      rcases hasEdge_updateNode_adjAppend_inv h2 with h3 | h3
      · exact Or.inl (hasEdge_checkMake_inv (hasEdge_checkMake_inv h3))
      · right
        rwa [htolc] at h3
  by_cases he : e.isSome = true
  · rw [if_pos he] at h
    rw [hasEdge_updateNode_extSet_iff] at h
    exact hcore h
  · rw [if_neg he] at h
    exact hcore h

/-- `add_node v [w] e` writes the directed edge `hash v → hash w` whenever
the node for `v` already exists and `w` hashes differently from `v`. -/
theorem hasEdge_add_node_pair {g : DGraph} (v w : Pt) (e : Option Bool)
    (hv : g.containsKey (vector2hash v g.tol))
    (hne : vector2hash w g.tol ≠ vector2hash v g.tol) :
    (g.add_node v [w] e).1.hasEdge (vector2hash v g.tol) (vector2hash w g.tol) := by
  rw [add_node_fst]
  have htolc : (g.checkMake (vector2hash v g.tol) v e).tol = g.tol :=
    tol_checkMake g (vector2hash v g.tol) v e
  have hvc : (g.checkMake (vector2hash v g.tol) v e).containsKey (vector2hash v g.tol) :=
    containsKey_checkMake_self g (vector2hash v g.tol) v e
  have hcore : ((g.checkMake (vector2hash v g.tol) v e).add_adj
      (vector2hash v g.tol) [w]).hasEdge (vector2hash v g.tol) (vector2hash w g.tol) := by
    have hmm := mem_adj_add_adj (List.mem_singleton.mpr rfl) hvc
      (by rw [htolc]; exact hne)
    show vector2hash w g.tol ∈ (((g.checkMake (vector2hash v g.tol) v e).add_adj
        (vector2hash v g.tol) [w]).getN (vector2hash v g.tol)).adj_lst
    nth_rewrite 4 [← htolc]
    exact hmm
  by_cases he : e.isSome = true
  · rw [if_pos he]
    rw [hasEdge_updateNode_extSet_iff]
    exact hcore
  · rw [if_neg he]
    exact hcore

/-- The loop body of the `> 2` connection loop of
`intersect_graph_with_segment` (the lets of `connectPairs` expanded). -/
def connectStep (ks : List Key) (sorted : List (ℕ × ℚ)) (g : DGraph) (i : ℕ) : DGraph :=
  ((g.add_node (g.getN (ks.getD (sorted.getD i default).1 default)).pt
      [(g.getN (ks.getD (sorted.getD (i + 1) default).1 default)).pt] (some false)).1.add_node
    (g.getN (ks.getD (sorted.getD (i + 1) default).1 default)).pt
    [(g.getN (ks.getD (sorted.getD i default).1 default)).pt] (some false)).1

theorem connectPairs_eq (g : DGraph) (ks : List Key) (sorted : List (ℕ × ℚ)) :
    connectPairs g ks sorted =
      (List.range (sorted.length - 1)).foldl (connectStep ks sorted) g := rfl

/-- Invariants and edge bookkeeping of the `> 2` connection loop after `m`
steps: consecutive sorted pairs up to `m` are connected both ways, and no
other edge has appeared. -/
theorem connect_fold_spec (ks : List Key) (sorted : List (ℕ × ℚ)) (hnd : ks.Nodup)
    (hidx : ∀ i, i < sorted.length → (sorted.getD i default).1 < ks.length)
    (hdist : ∀ i j, i < sorted.length → j < sorted.length → i ≠ j →
      (sorted.getD i default).1 ≠ (sorted.getD j default).1) :
    ∀ m, m < sorted.length → ∀ g : DGraph, KeysConsistent g →
      (∀ k ∈ ks, g.containsKey k) →
      (KeysConsistent ((List.range m).foldl (connectStep ks sorted) g) ∧
        (∀ k ∈ ks, ((List.range m).foldl (connectStep ks sorted) g).containsKey k)) ∧
      (∀ i, i + 1 ≤ m →
        ((List.range m).foldl (connectStep ks sorted) g).hasEdge
          (ks.getD (sorted.getD i default).1 default)
          (ks.getD (sorted.getD (i + 1) default).1 default) ∧
        ((List.range m).foldl (connectStep ks sorted) g).hasEdge
          (ks.getD (sorted.getD (i + 1) default).1 default)
          (ks.getD (sorted.getD i default).1 default)) ∧
      (∀ a b, ((List.range m).foldl (connectStep ks sorted) g).hasEdge a b →
        g.hasEdge a b ∨ ∃ i, i + 1 ≤ m ∧
          ((a = ks.getD (sorted.getD i default).1 default ∧
            b = ks.getD (sorted.getD (i + 1) default).1 default) ∨
           (a = ks.getD (sorted.getD (i + 1) default).1 default ∧
            b = ks.getD (sorted.getD i default).1 default))) := by
  intro m
  induction m with
  | zero =>
    intro _ g hkc hck
    simp only [List.range_zero, List.foldl_nil]
    exact ⟨⟨hkc, hck⟩, fun i hi => absurd hi (by omega),
      fun a b h => Or.inl h⟩
  | succ m ih =>
    intro hm g hkc hck
    have hm' : m < sorted.length := by omega
    obtain ⟨⟨ikc, ick⟩, ipos, iinv⟩ := ih hm' g hkc hck
    set gm := (List.range m).foldl (connectStep ks sorted) g with hgm
    rw [List.range_succ, List.foldl_append]
    simp only [List.foldl_cons, List.foldl_nil]
    have hi1lt : (sorted.getD m default).1 < ks.length := hidx m (by omega)
    have hi2lt : (sorted.getD (m + 1) default).1 < ks.length := hidx (m + 1) hm
    set kA := ks.getD (sorted.getD m default).1 default with hkA
    set kB := ks.getD (sorted.getD (m + 1) default).1 default with hkB
    have hAmem : kA ∈ ks := by
      rw [hkA, List.getD_eq_getElem ks default hi1lt]
      exact List.getElem_mem _
    have hBmem : kB ∈ ks := by
      rw [hkB, List.getD_eq_getElem ks default hi2lt]
      exact List.getElem_mem _
    have hi12 : (sorted.getD m default).1 ≠ (sorted.getD (m + 1) default).1 :=
      hdist m (m + 1) (by omega) hm (by omega)
    have hABne : kA ≠ kB := by
      rw [hkA, hkB, List.getD_eq_getElem ks default hi1lt,
        List.getD_eq_getElem ks default hi2lt]
      intro he
      exact hi12 ((List.Nodup.getElem_inj_iff hnd).mp he)
    have hAk : vector2hash (gm.getN kA).pt gm.tol = kA := hash_getN_pt ikc (ick kA hAmem)
    have hBk : vector2hash (gm.getN kB).pt gm.tol = kB := hash_getN_pt ikc (ick kB hBmem)
    set g1 := (gm.add_node (gm.getN kA).pt [(gm.getN kB).pt] (some false)).1 with hg1
    set g2 := (g1.add_node (gm.getN kB).pt [(gm.getN kA).pt] (some false)).1 with hg2
    have hstep : connectStep ks sorted gm m = g2 := rfl
    rw [hstep]
    have htol1 : g1.tol = gm.tol := tol_add_node gm _ _ _
    have htol2 : g2.tol = g1.tol := tol_add_node g1 _ _ _
    have hkc1 : KeysConsistent g1 := keysConsistent_add_node _ _ _ ikc
    have hck1 : ∀ k ∈ ks, g1.containsKey k :=
      fun k hk => containsKey_add_node_mono _ _ _ (ick k hk)
    have hkc2 : KeysConsistent g2 := keysConsistent_add_node _ _ _ hkc1
    have hck2 : ∀ k ∈ ks, g2.containsKey k :=
      fun k hk => containsKey_add_node_mono _ _ _ (hck1 k hk)
    have hE1 : g1.hasEdge kA kB := by
      have h := hasEdge_add_node_pair (gm.getN kA).pt (gm.getN kB).pt (some false)
        (by rw [hAk]; exact ick kA hAmem) (by rw [hAk, hBk]; exact hABne.symm)
      rwa [hAk, hBk] at h
    have hE2 : g2.hasEdge kB kA := by
      have hAk1 : vector2hash (gm.getN kA).pt g1.tol = kA := by rw [htol1]; exact hAk
      have hBk1 : vector2hash (gm.getN kB).pt g1.tol = kB := by rw [htol1]; exact hBk
      have h := hasEdge_add_node_pair (gm.getN kB).pt (gm.getN kA).pt (some false)
        (by rw [hBk1]; exact hck1 kB hBmem) (by rw [hAk1, hBk1]; exact hABne)
      rwa [hAk1, hBk1] at h
    have hE1' : g2.hasEdge kA kB :=
      hasEdge_add_node_mono _ _ _ (hck1 kA hAmem) hE1
    have hlift : ∀ a b, gm.hasEdge a b → gm.containsKey a → g2.hasEdge a b := by
      intro a b hab hca
      exact hasEdge_add_node_mono _ _ _ (containsKey_add_node_mono _ _ _ hca)
        (hasEdge_add_node_mono _ _ _ hca hab)
    refine ⟨⟨hkc2, hck2⟩, ?_, ?_⟩
    · intro i hi
      rcases Nat.lt_or_ge (i + 1) (m + 1) with hlt | hge
      · have hi' : i + 1 ≤ m := by omega
        have hisrc : ks.getD (sorted.getD i default).1 default ∈ ks := by
          rw [List.getD_eq_getElem ks default (hidx i (by omega))]
          exact List.getElem_mem _
        have hisrc2 : ks.getD (sorted.getD (i + 1) default).1 default ∈ ks := by
          rw [List.getD_eq_getElem ks default (hidx (i + 1) (by omega))]
          exact List.getElem_mem _
        obtain ⟨hp1, hp2⟩ := ipos i hi'
        exact ⟨hlift _ _ hp1 (ick _ hisrc), hlift _ _ hp2 (ick _ hisrc2)⟩
      · have hieq : i = m := by omega
        subst hieq
        exact ⟨hE1', hE2⟩
    · intro a b hab
      rcases hasEdge_add_node_single_inv hab with h1 | h1
      · rcases hasEdge_add_node_single_inv h1 with h0 | h0
        · rcases iinv a b h0 with hg | ⟨i, hi, hcase⟩
          · exact Or.inl hg
          · exact Or.inr ⟨i, by omega, hcase⟩
        · right
          refine ⟨m, by omega, Or.inl ⟨?_, ?_⟩⟩
          · rw [h0.1]
            exact hAk
          · rw [h0.2]
            exact hBk
      · right
        refine ⟨m, by omega, Or.inr ⟨?_, ?_⟩⟩
        · rw [h1.1, htol1]
          exact hBk
        · rw [h1.2, htol1]
          exact hAk

theorem distanceList_fst_map (g : DGraph) (ks : List Key) :
    (distanceList g ks).map Prod.fst =
      0 :: (List.range (ks.length - 1)).map (fun i => i + 1) := by
  unfold distanceList
  simp only [List.map_cons, List.map_map]
  rfl

theorem distanceList_fst_nodup (g : DGraph) (ks : List Key) :
    ((distanceList g ks).map Prod.fst).Nodup := by
  rw [distanceList_fst_map]
  rw [List.nodup_cons]
  refine ⟨?_, ?_⟩
  · intro h
    obtain ⟨i, _, hi⟩ := List.mem_map.mp h
    omega
  · exact (List.nodup_range _).map (fun a b h => by omega)

theorem distanceList_length (g : DGraph) (ks : List Key) (h : 1 ≤ ks.length) :
    (distanceList g ks).length = ks.length := by
  unfold distanceList
  simp only [List.length_cons, List.length_map, List.length_range]
  omega

theorem sorted_dl_length (g : DGraph) (ks : List Key) (h : 1 ≤ ks.length) :
    ((distanceList g ks).insertionSort (fun a b => a.2 ≤ b.2)).length = ks.length := by
  rw [List.length_insertionSort]
  exact distanceList_length g ks h

theorem sorted_dl_sorted (g : DGraph) (ks : List Key) :
    ((distanceList g ks).insertionSort (fun a b => a.2 ≤ b.2)).Sorted
      (fun a b => a.2 ≤ b.2) := by
  haveI : IsTotal (ℕ × ℚ) (fun a b => a.2 ≤ b.2) := ⟨fun a b => le_total a.2 b.2⟩
  haveI : IsTrans (ℕ × ℚ) (fun a b => a.2 ≤ b.2) := ⟨fun a b c h1 h2 => le_trans h1 h2⟩
  exact List.sorted_insertionSort _ _

theorem sorted_dl_fst_nodup (g : DGraph) (ks : List Key) :
    (((distanceList g ks).insertionSort (fun a b => a.2 ≤ b.2)).map Prod.fst).Nodup :=
  (((List.perm_insertionSort (fun a b => a.2 ≤ b.2) (distanceList g ks))).map
    Prod.fst).nodup_iff.mpr (distanceList_fst_nodup g ks)

theorem sorted_dl_idx (g : DGraph) (ks : List Key) (hks : 1 ≤ ks.length) :
    ∀ i, i < ((distanceList g ks).insertionSort (fun a b => a.2 ≤ b.2)).length →
    (((distanceList g ks).insertionSort (fun a b => a.2 ≤ b.2)).getD i default).1 <
      ks.length := by
  intro i hi
  rw [List.getD_eq_getElem _ default hi]
  have hmem : ((distanceList g ks).insertionSort (fun a b => a.2 ≤ b.2))[i] ∈
      distanceList g ks :=
    (List.perm_insertionSort (fun a b => a.2 ≤ b.2) (distanceList g ks)).mem_iff.mp
      (List.getElem_mem hi)
  have hfst : ((distanceList g ks).insertionSort (fun a b => a.2 ≤ b.2))[i].1 ∈
      (distanceList g ks).map Prod.fst := List.mem_map_of_mem Prod.fst hmem
  rw [distanceList_fst_map] at hfst
  rcases List.mem_cons.mp hfst with h0 | h1
  · omega
  · obtain ⟨j, hj, hji⟩ := List.mem_map.mp h1
    have := List.mem_range.mp hj
    omega

theorem sorted_dl_dist (g : DGraph) (ks : List Key) :
    ∀ i j, i < ((distanceList g ks).insertionSort (fun a b => a.2 ≤ b.2)).length →
    j < ((distanceList g ks).insertionSort (fun a b => a.2 ≤ b.2)).length → i ≠ j →
    (((distanceList g ks).insertionSort (fun a b => a.2 ≤ b.2)).getD i default).1 ≠
    (((distanceList g ks).insertionSort (fun a b => a.2 ≤ b.2)).getD j default).1 := by
  intro i j hi hj hij he
  apply hij
  rw [List.getD_eq_getElem _ default hi, List.getD_eq_getElem _ default hj] at he
  have hnds := sorted_dl_fst_nodup g ks
  have hi' : i < (((distanceList g ks).insertionSort
      (fun a b => a.2 ≤ b.2)).map Prod.fst).length := by simpa using hi
  have hj' : j < (((distanceList g ks).insertionSort
      (fun a b => a.2 ≤ b.2)).map Prod.fst).length := by simpa using hj
  have hmm : (((distanceList g ks).insertionSort (fun a b => a.2 ≤ b.2)).map
      Prod.fst).get ⟨i, hi'⟩ = (((distanceList g ks).insertionSort
      (fun a b => a.2 ≤ b.2)).map Prod.fst).get ⟨j, hj'⟩ := by
    simpa using he
  have hij2 := (List.Nodup.get_inj_iff hnds).mp hmm
  simpa using hij2

/-- Claim C4: after `intersect_graph_with_segment` (splice phase successful
with intersection keys `ks`, pairwise distinct, on a well-formed graph):
with exactly two intersection points a bidirectional edge connects the two
intersection nodes; with more than two, the intersection entries are
ordered by distance from the first intersection found (the connection
order is sorted by that distance) and exactly the consecutive pairs of
that order are connected bidirectionally — every edge of the result is an
edge of the spliced graph or one of those consecutive pairs, so the new
connections form a simple chain and never a complete graph; with zero or
one intersection the connection phase changes nothing. -/
theorem intersect_two_points_edge_chain (g : DGraph) (oracle : Seg → Seg → Option Pt)
    (seg : Seg) (g1 : DGraph) (ks : List Key)
    (hwf : KeysConsistent g) (hnd : ks.Nodup)
    (hsp : splicePhase oracle seg g = some (g1, ks)) :
    g.intersect_graph_with_segment oracle seg = some (connectPhase g1 ks) ∧
    (ks.length ≤ 1 → connectPhase g1 ks = g1) ∧
    (ks.length = 2 →
      (connectPhase g1 ks).hasEdge (ks.getD 0 default) (ks.getD 1 default) ∧
      (connectPhase g1 ks).hasEdge (ks.getD 1 default) (ks.getD 0 default)) ∧
    (2 < ks.length →
      ((distanceList g1 ks).insertionSort (fun a b => a.2 ≤ b.2)).Sorted
        (fun a b => a.2 ≤ b.2) ∧
      (∀ i, i + 1 < ks.length →
        (connectPhase g1 ks).hasEdge
          (ks.getD (((distanceList g1 ks).insertionSort
            (fun a b => a.2 ≤ b.2)).getD i default).1 default)
          (ks.getD (((distanceList g1 ks).insertionSort
            (fun a b => a.2 ≤ b.2)).getD (i + 1) default).1 default) ∧
        (connectPhase g1 ks).hasEdge
          (ks.getD (((distanceList g1 ks).insertionSort
            (fun a b => a.2 ≤ b.2)).getD (i + 1) default).1 default)
          (ks.getD (((distanceList g1 ks).insertionSort
            (fun a b => a.2 ≤ b.2)).getD i default).1 default)) ∧
      (∀ a b, (connectPhase g1 ks).hasEdge a b → g1.hasEdge a b ∨
        ∃ i, i + 1 < ks.length ∧
          ((a = ks.getD (((distanceList g1 ks).insertionSort
              (fun a b => a.2 ≤ b.2)).getD i default).1 default ∧
            b = ks.getD (((distanceList g1 ks).insertionSort
              (fun a b => a.2 ≤ b.2)).getD (i + 1) default).1 default) ∨
           (a = ks.getD (((distanceList g1 ks).insertionSort
              (fun a b => a.2 ≤ b.2)).getD (i + 1) default).1 default ∧
            b = ks.getD (((distanceList g1 ks).insertionSort
              (fun a b => a.2 ≤ b.2)).getD i default).1 default)))) := by
  have hsp' : (g.ordered_nodes.map (·.key)).foldl (spliceStep oracle seg)
      (some (g, [])) = some (g1, ks) := hsp
  have hprops := foldl_spliceStep_props oracle seg (g.ordered_nodes.map (·.key))
    g [] (g1, ks) hsp'
  have hkc1 : KeysConsistent g1 := hprops.2.2.2.1 hwf
  have hck1 : ∀ k ∈ ks, g1.containsKey k :=
    hprops.2.2.2.2.2 (fun k hk => absurd hk (List.not_mem_nil k))
  refine ⟨?_, ?_, ?_, ?_⟩
  · unfold DGraph.intersect_graph_with_segment
    rw [hsp]
    rfl
  · intro hle
    unfold connectPhase
    rw [if_neg (by omega), if_neg (by omega)]
  · intro h2
    have h0lt : 0 < ks.length := by omega
    have h1lt : 1 < ks.length := by omega
    set k0 := ks.getD 0 default with hk0
    set k1 := ks.getD 1 default with hk1
    have h0mem : k0 ∈ ks := by
      rw [hk0, List.getD_eq_getElem ks default h0lt]
      exact List.getElem_mem _
    have h1mem : k1 ∈ ks := by
      rw [hk1, List.getD_eq_getElem ks default h1lt]
      exact List.getElem_mem _
    have h01 : k0 ≠ k1 := by
      rw [hk0, hk1, List.getD_eq_getElem ks default h0lt,
        List.getD_eq_getElem ks default h1lt]
      intro he
      exact absurd ((List.Nodup.getElem_inj_iff hnd).mp he) (by omega)
    have hA : vector2hash (g1.getN k0).pt g1.tol = k0 := hash_getN_pt hkc1 (hck1 k0 h0mem)
    have hB : vector2hash (g1.getN k1).pt g1.tol = k1 := hash_getN_pt hkc1 (hck1 k1 h1mem)
    have hcp : connectPhase g1 ks =
        ((g1.add_node (g1.getN k0).pt [(g1.getN k1).pt] (some false)).1.add_node
          (g1.getN k1).pt [(g1.getN k0).pt] (some false)).1 := by
      unfold connectPhase
      rw [if_pos h2]
    rw [hcp]
    set gA := (g1.add_node (g1.getN k0).pt [(g1.getN k1).pt] (some false)).1 with hgA
    have htolA : gA.tol = g1.tol := tol_add_node g1 _ _ _
    have hEa : gA.hasEdge k0 k1 := by
      have h := hasEdge_add_node_pair (g1.getN k0).pt (g1.getN k1).pt (some false)
        (by rw [hA]; exact hck1 k0 h0mem) (by rw [hA, hB]; exact h01.symm)
      rwa [hA, hB] at h
    have hEb : (gA.add_node (g1.getN k1).pt [(g1.getN k0).pt]
        (some false)).1.hasEdge k1 k0 := by
      have hA1 : vector2hash (g1.getN k0).pt gA.tol = k0 := by rw [htolA]; exact hA
      have hB1 : vector2hash (g1.getN k1).pt gA.tol = k1 := by rw [htolA]; exact hB
      have h := hasEdge_add_node_pair (g1.getN k1).pt (g1.getN k0).pt (some false)
        (by rw [hB1]; exact containsKey_add_node_mono _ _ _ (hck1 k1 h1mem))
        (by rw [hA1, hB1]; exact h01)
      rwa [hA1, hB1] at h
    exact ⟨hasEdge_add_node_mono _ _ _
      (containsKey_add_node_mono _ _ _ (hck1 k0 h0mem)) hEa, hEb⟩
  · intro h2
    have hks1 : 1 ≤ ks.length := by omega
    have hlen := sorted_dl_length g1 ks hks1
    have hcp : connectPhase g1 ks =
        connectPairs g1 ks ((distanceList g1 ks).insertionSort
          (fun a b => a.2 ≤ b.2)) := by
      unfold connectPhase
      rw [if_neg (by omega), if_pos h2]
    obtain ⟨_, hpos, hinv⟩ := connect_fold_spec ks
      ((distanceList g1 ks).insertionSort (fun a b => a.2 ≤ b.2)) hnd
      (sorted_dl_idx g1 ks hks1) (sorted_dl_dist g1 ks)
      (((distanceList g1 ks).insertionSort (fun a b => a.2 ≤ b.2)).length - 1)
      (by omega) g1 hkc1 hck1
    have hcp2 : connectPhase g1 ks = (List.range
        (((distanceList g1 ks).insertionSort (fun a b => a.2 ≤ b.2)).length - 1)).foldl
        (connectStep ks ((distanceList g1 ks).insertionSort
          (fun a b => a.2 ≤ b.2))) g1 := by
      rw [hcp, connectPairs_eq]
    refine ⟨sorted_dl_sorted g1 ks, ?_, ?_⟩
    · intro i hi
      rw [hcp2]
      exact hpos i (by omega)
    · intro a b hab
      rw [hcp2] at hab
      rcases hinv a b hab with hg | ⟨i, hi, hcase⟩
      · exact Or.inl hg
      · exact Or.inr ⟨i, by omega, hcase⟩

/-- Triangle graph used to exercise the two-intersection case. -/
def gC : DGraph :=
  ((((DGraph.empty (1 / 10)).add_node (0, 0) [(2, 0)] (some true)).1.add_node
    (2, 0) [(0, 2)] (some true)).1.add_node (0, 2) [(0, 0)] (some true)).1

/-- Intersection routine returning the two crossings of the vertical line
`x = 1` with the triangle's bottom edge and hypotenuse. -/
def oracleC : Seg → Seg → Option Pt := fun t _ =>
  if t = (((0 : ℚ), (0 : ℚ)), ((2 : ℚ), (0 : ℚ))) then some (1, 0)
  else if t = (((2 : ℚ), (0 : ℚ)), ((0 : ℚ), (2 : ℚ))) then some (1, 1)
  else none

/-- The intersecting segment of the witness. -/
def segC : Seg := ((1, -1), (1, 3))

/-- Result of the splice phase on the witness input. -/
def spC : DGraph × List Key := (splicePhase oracleC segC gC).getD (gC, [])

set_option maxRecDepth 10000 in
/-- C4 witness: the splice phase on the triangle finds exactly two
intersections and the connection phase joins them with a bidirectional
edge. -/
theorem intersect_two_points_edge_chain_witness :
    KeysConsistent gC ∧ spC.2.Nodup ∧
    splicePhase oracleC segC gC = some (spC.1, spC.2) ∧
    spC.2.length = 2 ∧
    (connectPhase spC.1 spC.2).hasEdge (spC.2.getD 0 default) (spC.2.getD 1 default) ∧
    (connectPhase spC.1 spC.2).hasEdge (spC.2.getD 1 default) (spC.2.getD 0 default) := by
  have h := intersect_two_points_edge_chain gC oracleC segC spC.1 spC.2
    (by with_unfolding_all decide) (by with_unfolding_all decide)
    (by with_unfolding_all decide)
  exact ⟨by with_unfolding_all decide, by with_unfolding_all decide,
    by with_unfolding_all decide, by with_unfolding_all decide,
    (h.2.2.1 (by with_unfolding_all decide)).1,
    (h.2.2.1 (by with_unfolding_all decide)).2⟩

end Polyskel
